import Mathlib

/-!
Verification development for the utterance-to-directive compiler of the
CCRobot repository (backend/nlp.js).  The JavaScript source is shallowly
embedded: strings are lists of characters, the regular expressions used by
the source (all of which are alternations of \b-delimited literals, plus
two bounded numeric quantity patterns) are compiled to an explicit
scanning engine with JavaScript's ASCII-only \b word-boundary semantics
and ASCII case folding for the i flag, and the mutable parser context is
threaded explicitly.
-/

set_option maxHeartbeats 4000000
set_option maxRecDepth 4000

namespace CCRobot

/-- JavaScript word characters: the class [A-Za-z0-9_] that the \b
assertion of a non-unicode regex is defined over. -/
def isWordChar (c : Char) : Bool :=
  (65 ≤ c.toNat && c.toNat ≤ 90) || (97 ≤ c.toNat && c.toNat ≤ 122) ||
  (48 ≤ c.toNat && c.toNat ≤ 57) || (c.toNat == 95)

/-- ASCII lower-casing: the simple case fold applied by the i flag of the
source regexes (all cased literal characters in them are ASCII). -/
def lowerA (c : Char) : Char :=
  if 65 ≤ c.toNat && c.toNat ≤ 90 then Char.ofNat (c.toNat + 32) else c

/-- Case-insensitive character comparison used for literal matching. -/
def charEqCI (a b : Char) : Bool := lowerA a == lowerA b

/-- Word-character test on an optional character; a missing character
(string edge) counts as a non-word character, as in JavaScript. -/
def isWordO : Option Char → Bool
  | none => false
  | some c => isWordChar c

/-- The \b assertion between two adjacent (possibly absent) characters. -/
def bnd (a b : Option Char) : Bool := isWordO a != isWordO b

/-- JavaScript \s for the characters relevant to this source. -/
def isWs (c : Char) : Bool :=
  c == ' ' || c == '\t' || c == '\n' || c == '\r' ||
  c.toNat == 11 || c.toNat == 12

/-- ASCII digit test (\d). -/
def isDigitC (c : Char) : Bool := 48 ≤ c.toNat && c.toNat ≤ 57

/-- A regex literal alternative, kept non-empty by construction:
head character plus remaining characters. -/
abbrev Pat := Char × List Char

/-- The characters of an alternative. -/
def patChars (p : Pat) : List Char := p.1 :: p.2

/-- Build an alternative from a (non-empty) string literal. -/
def pat (s : String) : Pat :=
  match s.data with
  | [] => (' ', [])
  | c :: cs => (c, cs)

/-- Case-insensitive literal match of a character list against a prefix
of the input; returns the matched input characters and the rest. -/
def stripCI : List Char → List Char → Option (List Char × List Char)
  | [], s => some ([], s)
  | _ :: _, [] => none
  | p :: ps, c :: cs =>
    if charEqCI c p then
      match stripCI ps cs with
      | some (m, r) => some (c :: m, r)
      | none => none
    else none

/-- Try one \b-delimited alternative at the current position.  prev is
the input character just before the position (none at the start of the
string); both boundary assertions are evaluated on input characters. -/
def matchAlt (a : Pat) (prev : Option Char) (s : List Char) :
    Option (List Char × List Char) :=
  match stripCI (patChars a) s with
  | none => none
  | some (m, r) =>
    if bnd prev m.head? && bnd m.getLast? r.head? then some (m, r) else none

/-- Try the alternatives of an alternation in order, as a backtracking
regex engine does at a fixed position. -/
def tryAlts : List Pat → Option Char → List Char → Option (List Char × List Char)
  | [], _, _ => none
  | a :: as, prev, s =>
    match matchAlt a prev s with
    | some mr => some mr
    | none => tryAlts as prev s

theorem stripCI_append {p s m r : List Char} (h : stripCI p s = some (m, r)) :
    s = m ++ r ∧ m.length = p.length := by
  induction p generalizing s m r with
  | nil =>
    simp only [stripCI, Option.some.injEq, Prod.mk.injEq] at h
    obtain ⟨hm, hr⟩ := h
    subst hm; subst hr
    simp
  | cons x xs ih =>
    cases s with
    | nil => simp [stripCI] at h
    | cons c cs =>
      simp only [stripCI] at h
      by_cases hc : charEqCI c x
      · simp only [hc, if_pos] at h
        cases hm : stripCI xs cs with
        | none => rw [hm] at h; simp at h
        | some mr =>
          obtain ⟨m', r'⟩ := mr
          rw [hm] at h
          simp only [Option.some.injEq, Prod.mk.injEq] at h
          obtain ⟨hm1, hr⟩ := h
          obtain ⟨ha, hl⟩ := ih hm
          subst hm1; subst hr
          simp [ha, hl]
      · simp [hc] at h

theorem matchAlt_some {a : Pat} {prev : Option Char} {s m r : List Char}
    (h : matchAlt a prev s = some (m, r)) :
    s = m ++ r ∧ m.length = (patChars a).length := by
  unfold matchAlt at h
  cases hs : stripCI (patChars a) s with
  | none => rw [hs] at h; simp at h
  | some mr =>
    obtain ⟨m', r'⟩ := mr
    rw [hs] at h
    by_cases hb : (bnd prev m'.head? && bnd m'.getLast? r'.head?) = true
    · simp [hb] at h
      obtain ⟨h1, h2⟩ := h
      subst h1; subst h2
      exact stripCI_append hs
    · simp [hb] at h

theorem tryAlts_some {alts : List Pat} {prev : Option Char} {s m r : List Char}
    (h : tryAlts alts prev s = some (m, r)) : m ≠ [] ∧ s = m ++ r := by
  induction alts with
  | nil => simp [tryAlts] at h
  | cons a as ih =>
    simp only [tryAlts] at h
    cases hm : matchAlt a prev s with
    | none => rw [hm] at h; exact ih h
    | some mr =>
      rw [hm] at h
      obtain ⟨mm, rr⟩ := mr
      simp at h
      obtain ⟨h1, h2⟩ := h
      subst h1; subst h2
      obtain ⟨ha, hl⟩ := matchAlt_some hm
      constructor
      · intro hme
        rw [hme] at hl
        simp [patChars] at hl
      · exact ha

theorem tryAlts_rest_length {alts : List Pat} {prev : Option Char}
    {c : Char} {cs m r : List Char}
    (h : tryAlts alts prev (c :: cs) = some (m, r)) : r.length < (c :: cs).length := by
  obtain ⟨hm, he⟩ := tryAlts_some h
  have hl : (c :: cs).length = m.length + r.length := by rw [he]; simp
  have h1 : 1 ≤ m.length := by
    cases m with
    | nil => exact absurd rfl hm
    | cons x xs => simp
  simp only [List.length_cons] at hl ⊢
  omega

/-- The global-replace scan of String.replace with a g-flagged alternation
of \b-delimited literals: at each position try the alternatives in order;
on a match emit the replacement and continue right after the matched input
characters (boundary conditions keep being evaluated on input characters,
as the JavaScript engine evaluates them on the subject string).  The
scan is driven by a fuel argument so that it is structurally recursive;
any fuel of at least the input length gives the replacement semantics. -/
def scanReplF (alts : List Pat) (en : List Char) :
    Nat → Option Char → List Char → List Char
  | 0, _, s => s
  | _ + 1, _, [] => []
  | fuel + 1, prev, c :: cs =>
    match tryAlts alts prev (c :: cs) with
    | some (m, r) => en ++ scanReplF alts en fuel m.getLast? r
    | none => c :: scanReplF alts en fuel (some c) cs

def scanRepl (alts : List Pat) (en : List Char) (prev : Option Char)
    (s : List Char) : List Char :=
  scanReplF alts en s.length prev s

/-- One entry of the Urdu lexicon: a g/i regex that is an alternation of
\b-delimited literals, and its canonical English replacement. -/
structure LexEntry where
  alts : List Pat
  en : List Char

/-- The Urdu lexicon of the source, in source order. -/
def urduLex : List LexEntry := [
  -- Directions
  ⟨[pat "آگے", pat "سامنے", pat "آگے بڑھ", pat "آگے جاؤ"], "forward".data⟩,
  ⟨[pat "پیچھے", pat "الٹا", pat "ریورس", pat "واپس"], "backward".data⟩,
  ⟨[pat "دائیں"], "right".data⟩,
  ⟨[pat "بائیں"], "left".data⟩,
  -- Movement modifiers
  ⟨[pat "تیز", pat "شارپ"], "sharp".data⟩,
  ⟨[pat "ذرا", pat "تھوڑا"], "little".data⟩,
  -- Stop
  ⟨[pat "رکو", pat "روک", pat "ٹھہرو"], "stop".data⟩,
  -- Numbers / units
  ⟨[pat "میٹر"], "m".data⟩,
  ⟨[pat "سینٹی میٹر"], "cm".data⟩,
  ⟨[pat "سیکنڈ"], "s".data⟩,
  ⟨[pat "منٹ"], "min".data⟩,
  ⟨[pat "ڈگری"], "deg".data⟩,
  ⟨[pat "فیصد"], "%".data⟩,
  -- Actions
  ⟨[pat "کیمرہ", pat "تصویر", pat "ویڈیو"], "camera".data⟩,
  ⟨[pat "زوم"], "zoom".data⟩,
  ⟨[pat "تیلٹ"], "tilt".data⟩,
  ⟨[pat "پین"], "pan".data⟩,
  ⟨[pat "روشنی"], "lights".data⟩,
  ⟨[pat "سائرن"], "siren".data⟩,
  ⟨[pat "چھڑکاؤ"], "spray".data⟩,
  ⟨[pat "بجلی"], "taser".data⟩,
  -- Connectors
  ⟨[pat "اور", pat "پھر", pat "پھر سے"], "and".data⟩,
  ⟨[pat "اب"], "now".data⟩]

/-- Apply one lexicon entry as a global replacement. -/
def applyEntry (s : List Char) (e : LexEntry) : List Char :=
  scanRepl e.alts e.en none s

/-- urduToEnglish of the source: fold every lexicon entry, in order,
as a global replacement over the text. -/
def urduToEnglishL (s : List Char) : List Char :=
  urduLex.foldl applyEntry s

def urduToEnglish (s : String) : String := ⟨urduToEnglishL s.data⟩

example : urduToEnglish "hello" = "hello" := by decide
example : urduToEnglish "2میٹر2" = "2m2" := by decide
example : urduToEnglish "2 میٹر" = "2 میٹر" := by decide

/-! ### Clause splitting -/

/-- String.split against a g-flagged alternation of \b-delimited
literals; when incl is true the matched separator text is included in
the result, which is the behaviour of split with a capturing group. -/
def splitScanF (alts : List Pat) (incl : Bool) :
    Nat → Option Char → List Char → List Char → List (List Char)
  | 0, _, acc, s => [acc.reverse ++ s]
  | _ + 1, _, acc, [] => [acc.reverse]
  | fuel + 1, prev, acc, c :: cs =>
    match tryAlts alts prev (c :: cs) with
    | some (m, r) =>
      acc.reverse :: ((if incl then [m] else []) ++
        splitScanF alts incl fuel m.getLast? [] r)
    | none => splitScanF alts incl fuel (some c) (c :: acc) cs

def splitRegex (alts : List Pat) (incl : Bool) (s : List Char) :
    List (List Char) :=
  splitScanF alts incl s.length none [] s

/-- raw.replace of all whitespace runs by a single space. -/
def collapseWs : List Char → List Char
  | [] => []
  | [c] => if isWs c then [' '] else [c]
  | c :: d :: cs =>
    if isWs c && isWs d then collapseWs (d :: cs)
    else (if isWs c then ' ' else c) :: collapseWs (d :: cs)

/-- String.prototype.trim. -/
def trimL (s : List Char) : List Char :=
  ((s.dropWhile isWs).reverse.dropWhile isWs).reverse

/-- parts[i-1].split on whitespace runs, last element: the last
whitespace-free word of the (trimmed) previous part. -/
def lastWordL (s : List Char) : List Char :=
  (s.reverse.takeWhile (fun c => !isWs c)).reverse

/-- The in-place loop that prefixes every odd-indexed part with the last
word of the part before it ("reattach the keyword"). -/
def reattach : List (List Char) → List (List Char)
  | [] => []
  | [a] => [a]
  | a :: b :: rest => a :: (lastWordL a ++ ' ' :: b) :: reattach rest

/-- Primary connector alternation of splitClauses, in source order. -/
def primaryPats : List Pat :=
  [pat "then", pat "and then", pat "after that", pat ";", pat ",",
   pat "and", pat "phir", pat "اور"]

/-- Secondary action-verb alternation of splitClauses, in source order. -/
def secondaryPats : List Pat :=
  [pat "move", pat "go", pat "take", pat "turn", pat "rotate", pat "stop",
   pat "speed", pat "camera", pat "zoom", pat "lights", pat "siren",
   pat "spray", pat "taser"]

/-- splitClauses of the source: normalize spaces, split on connectors,
split each primary clause at embedded action verbs (keeping the captured
verbs), trim, drop empty parts, prefix each odd part with the previous
part's last word, and finally drop empty clauses. -/
def splitClauses (raw : List Char) : List (List Char) :=
  let text := trimL (collapseWs raw)
  let primaryClauses := splitRegex primaryPats false text
  let finalClauses := primaryClauses.foldl
    (fun acc cl =>
      let parts := ((splitRegex secondaryPats true cl).map trimL).filter
        (fun p => !p.isEmpty)
      acc ++ reattach parts)
    []
  finalClauses.filter (fun p => !p.isEmpty)

def splitClausesS (s : String) : List String :=
  (splitClauses s.data).map (fun l => ⟨l⟩)

example : splitClausesS "turn left 10 degrees rotate 90 degrees" =
    ["turn", "turn left 10 degrees", "rotate", "rotate 90 degrees"] := by decide

example : splitClausesS
    "move forward 2 meters then turn right a little and rotate 90 degrees then stop" =
    ["move", "move forward 2 meters", "turn", "turn right a little",
     "rotate", "rotate 90 degrees", "stop"] := by decide

example : splitClausesS "hello robot" = ["hello robot"] := by decide
example : splitClausesS "" = [] := by decide
example : splitClausesS "again" = ["again"] := by decide
example : splitClausesS "hello and goodbye" = ["hello", "goodbye"] := by decide

/-! ### Quantity extraction -/

def parseNatL (ds : List Char) : Nat :=
  ds.foldl (fun acc c => 10 * acc + (c.toNat - 48)) 0

/-- parseInt on an optional string: NaN (none) when the argument is
undefined or does not start with a digit, else the leading digit run. -/
def parseIntO : Option (List Char) → Option Nat
  | none => none
  | some l =>
    let ds := l.takeWhile isDigitC
    if ds.isEmpty then none else some (parseNatL ds)

/-- The JavaScript a || b on optional strings: an absent or empty string
is falsy. -/
def jsOrStr (a b : Option (List Char)) : Option (List Char) :=
  match a with
  | some s => if s.isEmpty then b else some s
  | none => b

/-- Match of the percent pattern \b(\d{1,3})\s*%|\b(\d{1,3})\s*percent\b
at one position: try the first alternative with greedy backtracking on
the digit count, then the second; the result carries the two capture
groups. -/
def pctAt (prev : Option Char) (s : List Char) :
    Option (Option (List Char) × Option (List Char)) :=
  if bnd prev s.head? then
    let run := s.takeWhile isDigitC
    let ks := (List.range (min 3 run.length)).reverse.map (fun k => k + 1)
    let alt1 := ks.findSome? (fun k =>
      let rest := (s.drop k).dropWhile isWs
      if rest.head? == some '%' then some (run.take k) else none)
    match alt1 with
    | some d => some (some d, none)
    | none =>
      let alt2 := ks.findSome? (fun k =>
        match stripCI ("percent".data) ((s.drop k).dropWhile isWs) with
        | some (m2, r2) =>
          if bnd m2.getLast? r2.head? then some (run.take k) else none
        | none => none)
      match alt2 with
      | some d => some (none, some d)
      | none => none
  else none

/-- Leftmost match of the percent pattern over the whole clause. -/
def findPct : Option Char → List Char → Option (Option (List Char) × Option (List Char))
  | _, [] => none
  | prev, c :: cs =>
    match pctAt prev (c :: cs) with
    | some g => some g
    | none => findPct (some c) cs

/-- English number-word table, in source insertion order. -/
def EN_NUM_WORDS : List (String × Nat) :=
  [("zero", 0), ("one", 1), ("two", 2), ("three", 3), ("four", 4),
   ("five", 5), ("six", 6), ("seven", 7), ("eight", 8), ("nine", 9),
   ("ten", 10), ("eleven", 11), ("twelve", 12), ("thirteen", 13),
   ("fifteen", 15), ("twenty", 20), ("thirty", 30), ("forty", 40),
   ("fifty", 50), ("sixty", 60), ("ninety", 90), ("hundred", 100)]

/-- Urdu number-word table, in source insertion order. -/
def UR_NUM_WORDS : List (String × Nat) :=
  [("صفر", 0), ("ایک", 1), ("دو", 2), ("تین", 3), ("چار", 4),
   ("پانچ", 5), ("چھ", 6), ("سات", 7), ("آٹھ", 8), ("نو", 9),
   ("دس", 10), ("پندرہ", 15), ("بیس", 20), ("تیس", 30), ("چالیس", 40),
   ("پچاس", 50), ("ساٹھ", 60), ("نوے", 90), ("سو", 100)]

/-- The unit alternation of the generic quantity regex, with each
optional-s alternative expanded greedily (Xs? tries Xs before X), in
source order. -/
def unitAlts : List String :=
  ["seconds", "second", "secs", "sec", "s", "minutes", "minute", "mins",
   "min", "m", "meters", "meter", "meter", "centimeters", "centimeter",
   "cm", "degrees", "degree", "deg", "percent", "%",
   "سیکنڈ", "منٹ", "میٹر", "سینٹی میٹر", "ڈگری", "فیصد"]

/-- Candidates for the numeral alternative \d+(?:\.\d+)? at one position,
in backtracking order: greedy integer run with its fraction options
(longest fraction first, then none), then shorter integer prefixes. -/
def numericCands (s : List Char) : List (List Char × List Char) :=
  let run := s.takeWhile isDigitC
  if run.isEmpty then [] else
    let rest0 := s.drop run.length
    let fracCands :=
      match rest0 with
      | '.' :: r1 =>
        let frun := r1.takeWhile isDigitC
        (List.range frun.length).reverse.map (fun f =>
          (run ++ '.' :: frun.take (f + 1), r1.drop (f + 1)))
      | _ => []
    let intCands := (List.range run.length).reverse.map (fun i =>
      (run.take (i + 1), s.drop (i + 1)))
    fracCands ++ intCands

/-- Candidates for group 1 of the generic quantity regex at one position,
in alternation order: English number words, Urdu number words, numerals. -/
def g1Cands (s : List Char) : List (List Char × List Char) :=
  ((EN_NUM_WORDS.map (fun p => p.1) ++ UR_NUM_WORDS.map (fun p => p.1)).filterMap
    (fun w => stripCI w.data s)) ++ numericCands s

/-- Match of the generic pattern \b(numeral)\s*(unit)?\b at one position,
with the regex backtracking order: group-1 candidates in order, then the
whitespace count greedily, then the optional unit group (alternatives in
order, then empty), then the final \b on input characters. -/
def rxAt (prev : Option Char) (s : List Char) :
    Option (List Char × Option (List Char)) :=
  if bnd prev s.head? then
    (g1Cands s).findSome? (fun c1 =>
      let m1 := c1.1
      let rest1 := c1.2
      let wsRun := rest1.takeWhile isWs
      ((List.range (wsRun.length + 1)).reverse).findSome? (fun j =>
        let rem := rest1.drop j
        let g2hit := unitAlts.findSome? (fun u =>
          match stripCI u.data rem with
          | some (m2, r2) =>
            if bnd m2.getLast? r2.head? then some (m1, some m2) else none
          | none => none)
        match g2hit with
        | some res => some res
        | none =>
          let lastC : Option Char :=
            if j == 0 then m1.getLast? else (rest1.take j).getLast?
          if bnd lastC rem.head? then some (m1, none) else none))
  else none

/-- Leftmost match of the generic quantity pattern over the clause. -/
def findRx : Option Char → List Char → Option (List Char × Option (List Char))
  | _, [] => none
  | prev, c :: cs =>
    match rxAt prev (c :: cs) with
    | some g => some g
    | none => findRx (some c) cs

/-- Substring test (an unanchored regex literal fragment). -/
def containsL (needle : List Char) : List Char → Bool
  | [] => needle.isEmpty
  | c :: cs => needle.isPrefixOf (c :: cs) || containsL needle cs

def lookupNum (tbl : List (String × Nat)) (t : List Char) : Option Nat :=
  (tbl.find? (fun p => p.1.data == t)).map (fun p => p.2)

/-- The anchored test /^\d+(\.\d+)?$/. -/
def decimalShape (t : List Char) : Bool :=
  let intp := t.takeWhile isDigitC
  if intp.isEmpty then false else
    match t.drop intp.length with
    | [] => true
    | '.' :: r => !r.isEmpty && (r.takeWhile isDigitC).length == r.length
    | _ => false

/-- parseFloat on a string of shape \d+(\.\d+)?. -/
def parseDecimal (t : List Char) : ℚ :=
  let intp := t.takeWhile isDigitC
  match t.drop intp.length with
  | '.' :: r => (parseNatL intp : ℚ) + (parseNatL r : ℚ) / ((10 : ℚ) ^ r.length)
  | _ => (parseNatL intp : ℚ)

/-- wordToNumber of the source: English table on the lower-cased token,
then Urdu table on the raw token, then decimal parse. -/
def wordToNumber (token : List Char) : Option ℚ :=
  let t := token.map lowerA
  match lookupNum EN_NUM_WORDS t with
  | some n => some (n : ℚ)
  | none =>
    match lookupNum UR_NUM_WORDS token with
    | some n => some (n : ℚ)
    | none => if decimalShape t then some (parseDecimal t) else none

def clamp (v lo hi : ℚ) : ℚ := max lo (min hi v)

/-- Math.round(sec*1000): JavaScript rounds half toward positive
infinity, i.e. floor(sec*1000 + 1/2).  Writing sec as num/den with den
positive, that is floor((2000*num + den) / (2*den)), computed here with
integer floor division so that it evaluates by plain reduction. -/
def ms (sec : ℚ) : ℤ := (2000 * sec.num + (sec.den : ℤ)).fdiv (2 * (sec.den : ℤ))

structure Quantity where
  value : Option ℚ
  unit : Option String
  deriving DecidableEq, Repr

/-- The generic-pattern stage of extractQuantity: match the numeral-plus-
optional-unit pattern and canonicalize the captured unit text. -/
def extractQuantityGeneric (clause : List Char) : Quantity :=
  match findRx none clause with
  | none => ⟨none, none⟩
  | some (m1, g2) =>
    let v := wordToNumber m1
    let unit := (g2.getD []).map lowerA
    if unit.isEmpty then ⟨v, none⟩
    else
      let u : String :=
        if "sec".data.isPrefixOf unit || unit == "s".data ||
            containsL "سیکنڈ".data unit then "s"
        else if "min".data.isPrefixOf unit || containsL "منٹ".data unit then "min"
        else if "deg".data.isPrefixOf unit || containsL "ڈگری".data unit then "deg"
        else if "cm".data.isPrefixOf unit ||
            containsL "سینٹی میٹر".data unit then "cm"
        else if ("m".data.isPrefixOf unit && !("min".data.isPrefixOf unit)) ||
            containsL "میٹر".data unit then "m"
        else if unit == "%".data || containsL "percent".data unit ||
            containsL "فیصد".data unit then "%"
        else ⟨unit⟩
      ⟨v, some u⟩

/-- extractQuantity of the source: the percent pattern first (on a match
with a parseable digit group, clamp to [0,100] and return unit percent),
else the generic pattern. -/
def extractQuantity (clause : List Char) : Quantity :=
  match findPct none clause with
  | some (g1, g2) =>
    match parseIntO (jsOrStr g1 g2) with
    | some p => ⟨some (clamp (p : ℚ) 0 100), some "%"⟩
    | none => extractQuantityGeneric clause
  | none => extractQuantityGeneric clause

def extractQuantityS (s : String) : Quantity := extractQuantity s.data

example : extractQuantityS "set speed 45%" = ⟨some 45, some "%"⟩ := by decide
example : extractQuantityS "move forward 2 meters" = ⟨some 2, some "m"⟩ := by decide
example : extractQuantityS "move forward for 2 minutes" = ⟨some 2, some "min"⟩ := by decide
example : extractQuantityS "rotate 90 degrees" = ⟨some 90, some "deg"⟩ := by decide
example : extractQuantityS "move left 150 cm" = ⟨some 150, some "cm"⟩ := by decide
example : extractQuantityS "hello robot" = ⟨none, none⟩ := by decide
example : extractQuantityS "turn right a little" = ⟨none, none⟩ := by decide
example : extractQuantityS "speed 150%" = ⟨some 100, some "%"⟩ := by decide

/-! ### Descriptors, context memory, clause classification -/

/-- The confidence constants 0.85, 0.5 and 0.95 of the source, as exact
rationals (mkRat keeps them evaluable by plain reduction). -/
def DEFAULT_CONFIDENCE : ℚ := mkRat 85 100
def LOW_CONFIDENCE : ℚ := mkRat 5 10
def HIGH_CONFIDENCE : ℚ := mkRat 95 100

/-- Context Memory of the source (the process-global context object),
threaded explicitly. -/
structure Ctx where
  lastDirection : Option String
  lastSpeedPct : ℚ
  lastHeadingDeg : ℚ
  lastTurnStyle : String
  deriving DecidableEq, Repr

def initialContext : Ctx := ⟨none, 50, 0, "normal"⟩

/-- Structured command descriptors, one constructor per action tag the
source constructs; payload fields follow the object fields of the
source. -/
inductive Desc where
  | safety (type : String) (confidence : ℚ) (raw : String)
  | move (type : String) (style : Option String) (distanceM : Option ℚ)
      (durationMs : Option ℤ) (relative : Bool) (confidence : ℚ) (raw : String)
  | wait (value : ℤ) (unit : String) (confidence : ℚ) (raw : String)
  | speed (type : String) (value : ℚ) (unit : String) (confidence : ℚ) (raw : String)
  | turn (direction : String) (style : String) (relative : Bool)
      (confidence : ℚ) (raw : String)
  | rotate (direction : String) (value : ℚ) (unit : String) (relative : Bool)
      (confidence : ℚ) (raw : String)
  | camera (type : String) (value : Option ℚ) (confidence : ℚ) (raw : String)
  | siren (type : String) (confidence : ℚ) (raw : String)
  | lights (type : String) (confidence : ℚ) (raw : String)
  | spray (type : String) (confidence : ℚ) (raw : String)
  | taser (type : String) (confidence : ℚ) (raw : String)
  | unknown (raw : String) (confidence : ℚ)
  deriving DecidableEq, Repr

def Desc.isUnknown : Desc → Bool
  | .unknown _ _ => true
  | _ => false

/-- regex.test for a g/i alternation of \b-delimited literals. -/
def existsMatch (alts : List Pat) : Option Char → List Char → Bool
  | _, [] => false
  | prev, c :: cs =>
    (tryAlts alts prev (c :: cs)).isSome || existsMatch alts (some c) cs

def testR (alts : List Pat) (s : List Char) : Bool := existsMatch alts none s

def littlePats : List Pat := [pat "little", pat "slightly", pat "a bit"]
def sharpPats : List Pat := [pat "sharp"]
def forwardPats : List Pat := [pat "forward", pat "ahead", pat "straight"]
def backwardPats : List Pat := [pat "back", pat "backward", pat "reverse"]
def leftPats : List Pat := [pat "left"]
def rightPats : List Pat := [pat "right"]
def rotatePats : List Pat := [pat "rotate", pat "spin"]
def turnPats : List Pat := [pat "turn"]
def stopPats : List Pat := [pat "stop", pat "halt", pat "freeze"]
def speedPats : List Pat := [pat "speed", pat "throttle", pat "velocity", pat "power"]
def safetyPats : List Pat := [pat "emergency stop", pat "panic", pat "kill switch"]
def forPats : List Pat := [pat "for"]
def cameraPats : List Pat := [pat "camera", pat "photo", pat "picture"]
def videoPats : List Pat := [pat "video", pat "record"]
def zoomPats : List Pat := [pat "zoom"]
def sirenPats : List Pat := [pat "siren", pat "alarm"]
def lightPats : List Pat := [pat "light", pat "flash"]
def sprayPats : List Pat := [pat "spray", pat "gas", pat "water"]
def taserPats : List Pat := [pat "taser", pat "shock", pat "stun"]
def againPats : List Pat := [pat "again"]

/-- The direction chain forward/backward/left/right of parseClause. -/
def clauseDir (raw : List Char) : Option String :=
  if testR forwardPats raw then some "forward"
  else if testR backwardPats raw then some "backward"
  else if testR leftPats raw then some "left"
  else if testR rightPats raw then some "right" else none

/-- The style expression sharp?"sharp":little?"little":"normal". -/
def clauseStyle (raw : List Char) : String :=
  if testR sharpPats raw then "sharp"
  else if testR littlePats raw then "little" else "normal"

/-- Duration in milliseconds of a timed move (minutes scaled by 60). -/
def clauseDur (q : Quantity) : ℤ :=
  if q.unit == some "min" then ms (q.value.getD 0 * 60) else ms (q.value.getD 0)

/-- Rotation direction: left gives counterclockwise, otherwise clockwise
(the clockwise default). -/
def rotDir (raw : List Char) : String :=
  if testR leftPats raw then "ccw"
  else if testR rightPats raw then "cw" else "cw"

/-- Signed heading update of the rotate rule. -/
def headingDelta (raw : List Char) (qv : ℚ) : ℚ :=
  if rotDir raw == "cw" then qv else -qv

/-- The distance in meters of a distance move (centimeters over 100). -/
def clauseMeters (q : Quantity) : ℚ :=
  if q.unit == some "cm" then q.value.getD 0 / 100 else q.value.getD 0

/-- The speed percentage of a speed clause. -/
def clausePct (q : Quantity) : ℚ := clamp (q.value.getD 0) 0 100

/-- The turn direction left?"left":"right". -/
def turnDir (raw : List Char) : String :=
  if testR leftPats raw then "left" else "right"

/-- The turn style sharp?"sharp":"normal". -/
def turnStyle (raw : List Char) : String :=
  if testR sharpPats raw then "sharp" else "normal"

/-- parseClause of the source on an already trimmed clause: the
precedence-ordered rule cascade.  The two rules whose body is guarded by
a computed direction (timed move and distance move) fall through to the
following rules when no direction cue is present, which is flattened
here into the rule condition. -/
def parseClauseR (raw : List Char) (context : Ctx) : List Desc × Ctx :=
  if testR safetyPats raw then
    ([.safety "estop" HIGH_CONFIDENCE ⟨raw⟩], context)
  else if testR stopPats raw then
    ([.move "stop" none none none false HIGH_CONFIDENCE ⟨raw⟩],
     { context with lastDirection := none })
  else if testR speedPats raw && (extractQuantity raw).value.isSome &&
      ((extractQuantity raw).unit == some "%" || (extractQuantity raw).unit == none) then
    ([.speed "set" (clausePct (extractQuantity raw)) "%" DEFAULT_CONFIDENCE ⟨raw⟩],
     { context with lastSpeedPct := clausePct (extractQuantity raw) })
  else if testR forPats raw && (extractQuantity raw).value.isSome &&
      ((extractQuantity raw).unit == some "s" || (extractQuantity raw).unit == some "min") &&
      (clauseDir raw).isSome then
    ([.move ((clauseDir raw).getD "") (some (clauseStyle raw)) none
        (some (clauseDur (extractQuantity raw))) true DEFAULT_CONFIDENCE ⟨raw⟩,
      .wait (clauseDur (extractQuantity raw)) "ms" HIGH_CONFIDENCE ⟨raw⟩,
      .move "stop" none none none false HIGH_CONFIDENCE ⟨raw⟩],
     { context with lastDirection := clauseDir raw })
  else if (extractQuantity raw).value.isSome &&
      ((extractQuantity raw).unit == some "m" || (extractQuantity raw).unit == some "cm") &&
      (clauseDir raw).isSome then
    ([.move ((clauseDir raw).getD "") (some (clauseStyle raw))
        (some (clauseMeters (extractQuantity raw))) none true DEFAULT_CONFIDENCE ⟨raw⟩],
     { context with lastDirection := clauseDir raw })
  else if testR rotatePats raw && (extractQuantity raw).value.isSome &&
      (extractQuantity raw).unit == some "deg" then
    ([.rotate (rotDir raw) ((extractQuantity raw).value.getD 0) "deg" true
        DEFAULT_CONFIDENCE ⟨raw⟩],
     { context with lastHeadingDeg := context.lastHeadingDeg +
        headingDelta raw ((extractQuantity raw).value.getD 0) })
  else if (testR turnPats raw || testR sharpPats raw) &&
      (testR leftPats raw || testR rightPats raw) then
    ([.turn (turnDir raw) (turnStyle raw) true DEFAULT_CONFIDENCE ⟨raw⟩],
     { context with lastDirection := some (turnDir raw) })
  else if testR forwardPats raw || testR backwardPats raw ||
      testR leftPats raw || testR rightPats raw then
    ([.move ((clauseDir raw).getD "right") (some (clauseStyle raw)) none none true
        DEFAULT_CONFIDENCE ⟨raw⟩],
     { context with lastDirection := some ((clauseDir raw).getD "right") })
  else if testR cameraPats raw then ([.camera "photo" none DEFAULT_CONFIDENCE ⟨raw⟩], context)
  else if testR videoPats raw then ([.camera "record" none DEFAULT_CONFIDENCE ⟨raw⟩], context)
  else if testR zoomPats raw then
    ([.camera "zoom" (some ((extractQuantity raw).value.getD 1)) DEFAULT_CONFIDENCE ⟨raw⟩],
     context)
  else if testR sirenPats raw then ([.siren "toggle" DEFAULT_CONFIDENCE ⟨raw⟩], context)
  else if testR lightPats raw then ([.lights "toggle" DEFAULT_CONFIDENCE ⟨raw⟩], context)
  else if testR sprayPats raw then ([.spray "activate" DEFAULT_CONFIDENCE ⟨raw⟩], context)
  else if testR taserPats raw then ([.taser "fire" DEFAULT_CONFIDENCE ⟨raw⟩], context)
  else ([.unknown ⟨raw⟩ LOW_CONFIDENCE], context)

/-- parseClause of the source: trim the clause, then classify. -/
def parseClause (clauseRaw : List Char) (context : Ctx) : List Desc × Ctx :=
  parseClauseR (trimL clauseRaw) context

/-- The per-clause loop of parseCommandStructured. -/
def runClauses : List (List Char) → Ctx → List Desc × Ctx
  | [], ctx => ([], ctx)
  | c :: cs, ctx =>
    let res := parseClause c ctx
    let res2 := runClauses cs res.2
    (res.1 ++ res2.1, res2.2)

/-- JavaScript truthiness of context.lastDirection: null and the empty
string are falsy. -/
def jsTruthyS : Option String → Bool
  | none => false
  | some d => !(d == "")

/-- The utterance-level "again" fallback: when the normalized utterance
contains an again cue, no command classified, and a last direction is
remembered (and truthy), append a synthesized move descriptor. -/
def againFallback (normalized : List Char) (res : List Desc × Ctx) :
    List Desc × Ctx :=
  if existsMatch againPats none normalized &&
      !(res.1.any (fun c => !c.isUnknown)) && jsTruthyS res.2.lastDirection then
    (res.1 ++
      [.move (res.2.lastDirection.getD "") none none none true LOW_CONFIDENCE "again"],
     res.2)
  else res

/-- parseCommandStructured of the source: normalize, segment, classify
every clause in order, then the utterance-level "again" fallback. -/
def parseCommandStructured (sentenceRaw : String) (context : Ctx) :
    List Desc × Ctx :=
  againFallback (urduToEnglishL sentenceRaw.data)
    (runClauses (splitClauses (urduToEnglishL sentenceRaw.data)) context)

/-! ### Lowering adapter -/

def natToStr (n : Nat) : String := ⟨Nat.toDigits 10 n⟩

def intToStr (i : ℤ) : String :=
  if i < 0 then "-" ++ natToStr i.natAbs else natToStr i.natAbs

def padZeros (k : Nat) (s : String) : String :=
  String.mk (List.replicate (k - s.length) '0') ++ s

/-- JavaScript number-to-string for the finite decimal values this
program produces in template literals: the shortest decimal expansion
of num/den, computed with integer arithmetic so that it evaluates by
plain reduction. -/
def ratToStr (q : ℚ) : String :=
  let sign := if q.num < 0 then "-" else ""
  let n := q.num.natAbs
  let d := q.den
  if d == 1 then sign ++ natToStr n
  else
    match (List.range 30).findSome? (fun k =>
      if (n * 10 ^ (k + 1)) % d == 0 then some (k + 1) else none) with
    | some k =>
      let digits := n * 10 ^ k / d
      sign ++ natToStr (digits / 10 ^ k) ++ "." ++ padZeros k (natToStr (digits % 10 ^ k))
    | none => sign ++ natToStr n ++ "/" ++ natToStr d

/-- The per-descriptor arm of the legacy adapter's switch. -/
def lowerOne : Desc → List String
  | .unknown _ _ => []
  | .move t _ dist dur _ _ _ =>
    (if t == "stop" then "move.stop" else "move." ++ t) ::
    ((match dist with
      | some d => ["move.distance:" ++ ratToStr d ++ "m"]
      | none => []) ++
     (match dur with
      | some d => ["move.duration:" ++ intToStr d, "wait:" ++ intToStr d, "move.stop"]
      | none => []))
  | .turn d _ _ _ _ => ["turn." ++ d]
  | .rotate d v _ _ _ _ => ["rotate." ++ d ++ ".deg:" ++ ratToStr v]
  | .speed _ v _ _ _ => ["move.speed:" ++ ratToStr v]
  | .camera t v _ _ =>
    [if t == "photo" then "camera.photo"
     else if t == "record" then "camera.record"
     else "camera.zoom:" ++ ratToStr (v.getD 1)]
  | .siren _ _ _ => ["siren"]
  | .lights _ _ _ => ["flash"]
  | .spray _ _ _ => ["spray"]
  | .taser _ _ _ => ["taser"]
  | .wait v _ _ _ => ["wait:" ++ intToStr v]
  | .safety t _ _ => if t == "estop" then ["safety.estop"] else []

/-- The result of the legacy adapter: either the terminal string
"unknown" or the flat token array. -/
inductive LegacyOut where
  | str (s : String)
  | list (l : List String)
  deriving DecidableEq, Repr

/-- The legacy adapter's flattening of a descriptor list; the source's
final flat.length===1?flat:flat returns the array in both branches. -/
def legacyLower (commands : List Desc) : LegacyOut :=
  let flat := (commands.map lowerOne).flatten
  if flat.isEmpty then .str "unknown"
  else if flat.length == 1 then .list flat else .list flat

def parseCommandLegacy (rawInput : String) (context : Ctx) : LegacyOut × Ctx :=
  let res := parseCommandStructured rawInput context
  (legacyLower res.1, res.2)

/-! ### Structural lemmas about the classifier -/

/-- A clause whose descriptors are all unknown took the fallback rule:
it produced exactly one unknown descriptor and left the context
untouched. -/
theorem parseClauseR_unknown_shape (raw : List Char) (ctx : Ctx) (ds : List Desc)
    (ctx' : Ctx) (hp : parseClauseR raw ctx = (ds, ctx'))
    (h : ∀ d ∈ ds, d.isUnknown = true) :
    ds = [.unknown ⟨raw⟩ LOW_CONFIDENCE] ∧ ctx' = ctx := by
  unfold parseClauseR at hp
  by_cases hc1 : testR safetyPats raw = true
  · rw [if_pos hc1] at hp
    injection hp with h1 h2; subst h1; subst h2
    simp [Desc.isUnknown] at h
  rw [if_neg hc1] at hp
  by_cases hc2 : testR stopPats raw = true
  · rw [if_pos hc2] at hp
    injection hp with h1 h2; subst h1; subst h2
    simp [Desc.isUnknown] at h
  rw [if_neg hc2] at hp
  by_cases hc3 : (testR speedPats raw && (extractQuantity raw).value.isSome &&
      ((extractQuantity raw).unit == some "%" || (extractQuantity raw).unit == none)) = true
  · rw [if_pos hc3] at hp
    injection hp with h1 h2; subst h1; subst h2
    simp [Desc.isUnknown] at h
  rw [if_neg hc3] at hp
  by_cases hc4 : (testR forPats raw && (extractQuantity raw).value.isSome &&
      ((extractQuantity raw).unit == some "s" || (extractQuantity raw).unit == some "min") &&
      (clauseDir raw).isSome) = true
  · rw [if_pos hc4] at hp
    injection hp with h1 h2; subst h1; subst h2
    simp [Desc.isUnknown] at h
  rw [if_neg hc4] at hp
  by_cases hc5 : ((extractQuantity raw).value.isSome &&
      ((extractQuantity raw).unit == some "m" || (extractQuantity raw).unit == some "cm") &&
      (clauseDir raw).isSome) = true
  · rw [if_pos hc5] at hp
    injection hp with h1 h2; subst h1; subst h2
    simp [Desc.isUnknown] at h
  rw [if_neg hc5] at hp
  by_cases hc6 : (testR rotatePats raw && (extractQuantity raw).value.isSome &&
      (extractQuantity raw).unit == some "deg") = true
  · rw [if_pos hc6] at hp
    injection hp with h1 h2; subst h1; subst h2
    simp [Desc.isUnknown] at h
  rw [if_neg hc6] at hp
  by_cases hc7 : ((testR turnPats raw || testR sharpPats raw) &&
      (testR leftPats raw || testR rightPats raw)) = true
  · rw [if_pos hc7] at hp
    injection hp with h1 h2; subst h1; subst h2
    simp [Desc.isUnknown] at h
  rw [if_neg hc7] at hp
  by_cases hc8 : (testR forwardPats raw || testR backwardPats raw ||
      testR leftPats raw || testR rightPats raw) = true
  · rw [if_pos hc8] at hp
    injection hp with h1 h2; subst h1; subst h2
    simp [Desc.isUnknown] at h
  rw [if_neg hc8] at hp
  by_cases hc9 : testR cameraPats raw = true
  · rw [if_pos hc9] at hp
    injection hp with h1 h2; subst h1; subst h2
    simp [Desc.isUnknown] at h
  rw [if_neg hc9] at hp
  by_cases hc10 : testR videoPats raw = true
  · rw [if_pos hc10] at hp
    injection hp with h1 h2; subst h1; subst h2
    simp [Desc.isUnknown] at h
  rw [if_neg hc10] at hp
  by_cases hc11 : testR zoomPats raw = true
  · rw [if_pos hc11] at hp
    injection hp with h1 h2; subst h1; subst h2
    simp [Desc.isUnknown] at h
  rw [if_neg hc11] at hp
  by_cases hc12 : testR sirenPats raw = true
  · rw [if_pos hc12] at hp
    injection hp with h1 h2; subst h1; subst h2
    simp [Desc.isUnknown] at h
  rw [if_neg hc12] at hp
  by_cases hc13 : testR lightPats raw = true
  · rw [if_pos hc13] at hp
    injection hp with h1 h2; subst h1; subst h2
    simp [Desc.isUnknown] at h
  rw [if_neg hc13] at hp
  by_cases hc14 : testR sprayPats raw = true
  · rw [if_pos hc14] at hp
    injection hp with h1 h2; subst h1; subst h2
    simp [Desc.isUnknown] at h
  rw [if_neg hc14] at hp
  by_cases hc15 : testR taserPats raw = true
  · rw [if_pos hc15] at hp
    injection hp with h1 h2; subst h1; subst h2
    simp [Desc.isUnknown] at h
  rw [if_neg hc15] at hp
  injection hp with h1 h2; subst h1; subst h2
  exact ⟨rfl, rfl⟩

theorem parseClause_unknown_shape (c : List Char) (ctx : Ctx)
    (h : ∀ d ∈ (parseClause c ctx).1, d.isUnknown = true) :
    parseClause c ctx = ([.unknown ⟨trimL c⟩ LOW_CONFIDENCE], ctx) := by
  have hp : parseClauseR (trimL c) ctx =
      ((parseClause c ctx).1, (parseClause c ctx).2) := rfl
  obtain ⟨h1, h2⟩ := parseClauseR_unknown_shape _ _ _ _ hp h
  unfold parseClause
  rw [Prod.ext_iff]
  exact ⟨h1, h2⟩

/-- The clause loop on an all-unknown result: context unchanged and one
descriptor per clause. -/
theorem runClauses_unknown (cls : List (List Char)) (ctx : Ctx)
    (h : ∀ d ∈ (runClauses cls ctx).1, d.isUnknown = true) :
    (runClauses cls ctx).2 = ctx ∧ (runClauses cls ctx).1.length = cls.length := by
  induction cls generalizing ctx with
  | nil => simp [runClauses]
  | cons c cs ih =>
    have hsplit : (runClauses (c :: cs) ctx).1 =
        (parseClause c ctx).1 ++ (runClauses cs (parseClause c ctx).2).1 := rfl
    have h1 : ∀ d ∈ (parseClause c ctx).1, d.isUnknown = true := by
      intro d hd
      exact h d (by rw [hsplit]; exact List.mem_append_left _ hd)
    have hshape := parseClause_unknown_shape c ctx h1
    have h2 : ∀ d ∈ (runClauses cs ctx).1, d.isUnknown = true := by
      intro d hd
      apply h d
      rw [hsplit]
      apply List.mem_append_right
      have : (parseClause c ctx).2 = ctx := by rw [hshape]
      rw [this]
      exact hd
    have hctx2 : (parseClause c ctx).2 = ctx := by rw [hshape]
    obtain ⟨ihc, ihl⟩ := ih ctx h2
    have hr2 : (runClauses (c :: cs) ctx).2 = (runClauses cs (parseClause c ctx).2).2 := rfl
    constructor
    · rw [hr2, hctx2, ihc]
    · rw [hsplit, hctx2, List.length_append, ihl]
      have : (parseClause c ctx).1.length = 1 := by rw [hshape]; rfl
      rw [this]
      simp only [List.length_cons]
      omega

/-- The two possible outcomes of a parse call: the clause results alone,
or with the synthesized ellipsis move appended; the context is the one
produced by the clause loop in both cases. -/
theorem againFallback_cases (n : List Char) (r : List Desc × Ctx) :
    (againFallback n r).2 = r.2 ∧
    ((againFallback n r).1 = r.1 ∨
      (againFallback n r).1 = r.1 ++
        [.move (r.2.lastDirection.getD "") none none none true LOW_CONFIDENCE "again"]) := by
  unfold againFallback
  split
  · exact ⟨rfl, Or.inr rfl⟩
  · exact ⟨rfl, Or.inl rfl⟩

theorem parseCommandStructured_cases (s : String) (ctx : Ctx) :
    (parseCommandStructured s ctx).2 =
      (runClauses (splitClauses (urduToEnglishL s.data)) ctx).2 ∧
    ((parseCommandStructured s ctx).1 =
        (runClauses (splitClauses (urduToEnglishL s.data)) ctx).1 ∨
      (parseCommandStructured s ctx).1 =
        (runClauses (splitClauses (urduToEnglishL s.data)) ctx).1 ++
          [.move ((runClauses (splitClauses (urduToEnglishL s.data)) ctx).2.lastDirection.getD "")
            none none none true LOW_CONFIDENCE "again"]) :=
  againFallback_cases _ _

/-- If a whole parse call returned only unknown descriptors, the clause
loop already returned only unknown descriptors. -/
theorem structured_all_unknown_run {s : String} {ctx : Ctx}
    (h : ∀ d ∈ (parseCommandStructured s ctx).1, d.isUnknown = true) :
    ∀ d ∈ (runClauses (splitClauses (urduToEnglishL s.data)) ctx).1,
      d.isUnknown = true := by
  intro d hd
  apply h
  rcases (parseCommandStructured_cases s ctx).2 with he | he
  · rw [he]; exact hd
  · rw [he]; exact List.mem_append_left _ hd

/-! ### Concrete evaluation lemmas

The kernel evaluates each stage once through these lemmas; the scenario
theorems below are then assembled by rewriting, which keeps every
`decide` small. -/

/-- The clause strings of the concrete scenarios, named so that they
stay atomic during rewriting. -/
abbrev clMove : List Char := "move".data
abbrev clMf2m : List Char := "move forward 2 meters".data
abbrev clTurn : List Char := "turn".data
abbrev clTral : List Char := "turn right a little".data
abbrev clRot : List Char := "rotate".data
abbrev clR90 : List Char := "rotate 90 degrees".data
abbrev clStop : List Char := "stop".data
abbrev clMff2m : List Char := "move forward for 2 minutes".data
abbrev clAgain : List Char := "again".data
abbrev clHr : List Char := "hello robot".data
abbrev clHello : List Char := "hello".data
abbrev clGoodbye : List Char := "goodbye".data

theorem hq_move : extractQuantity (trimL clMove) = ⟨none, none⟩ := by decide
theorem hq_mf2m : extractQuantity (trimL clMf2m) =
    ⟨some 2, some "m"⟩ := by decide
theorem hq_turn : extractQuantity (trimL clTurn) = ⟨none, none⟩ := by decide
theorem hq_tral : extractQuantity (trimL clTral) =
    ⟨none, none⟩ := by decide
theorem hq_rot : extractQuantity (trimL clRot) = ⟨none, none⟩ := by decide
theorem hq_r90 : extractQuantity (trimL clR90) =
    ⟨some 90, some "deg"⟩ := by decide
theorem hq_stop : extractQuantity (trimL clStop) = ⟨none, none⟩ := by decide
theorem hq_mff2m : extractQuantity (trimL clMff2m) =
    ⟨some 2, some "min"⟩ := by decide
theorem hq_again : extractQuantity (trimL clAgain) = ⟨none, none⟩ := by decide
theorem hq_hr : extractQuantity (trimL clHr) = ⟨none, none⟩ := by decide
theorem hq_hello : extractQuantity (trimL clHello) = ⟨none, none⟩ := by decide
theorem hq_goodbye : extractQuantity (trimL clGoodbye) = ⟨none, none⟩ := by decide

theorem pc_move_c0 : parseClause clMove (⟨none, 50, 0, "normal"⟩ : Ctx) =
    ([.unknown "move" LOW_CONFIDENCE], (⟨none, 50, 0, "normal"⟩ : Ctx)) := by
  unfold parseClause parseClauseR
  rw [hq_move]
  decide

theorem pc_mf2m_c0 :
    parseClause clMf2m (⟨none, 50, 0, "normal"⟩ : Ctx) =
    ([.move "forward" (some "normal") (some 2) none true DEFAULT_CONFIDENCE
        "move forward 2 meters"],
     (⟨some "forward", 50, 0, "normal"⟩ : Ctx)) := by
  unfold parseClause parseClauseR
  rw [hq_mf2m]
  decide

theorem pc_turn_c1 : parseClause clTurn (⟨some "forward", 50, 0, "normal"⟩ : Ctx) =
    ([.unknown "turn" LOW_CONFIDENCE], (⟨some "forward", 50, 0, "normal"⟩ : Ctx)) := by
  unfold parseClause parseClauseR
  rw [hq_turn]
  decide

theorem pc_tral_c1 :
    parseClause clTral (⟨some "forward", 50, 0, "normal"⟩ : Ctx) =
    ([.turn "right" "normal" true DEFAULT_CONFIDENCE "turn right a little"],
     (⟨some "right", 50, 0, "normal"⟩ : Ctx)) := by
  unfold parseClause parseClauseR
  rw [hq_tral]
  decide

theorem pc_rot_c2 : parseClause clRot (⟨some "right", 50, 0, "normal"⟩ : Ctx) =
    ([.unknown "rotate" LOW_CONFIDENCE], (⟨some "right", 50, 0, "normal"⟩ : Ctx)) := by
  unfold parseClause parseClauseR
  rw [hq_rot]
  decide

theorem pc_r90_c2 :
    parseClause clR90 (⟨some "right", 50, 0, "normal"⟩ : Ctx) =
    ([.rotate "cw" 90 "deg" true DEFAULT_CONFIDENCE "rotate 90 degrees"],
     (⟨some "right", 50, 90, "normal"⟩ : Ctx)) := by
  unfold parseClause parseClauseR
  rw [hq_r90,
    show (⟨some "right", 50, 0, "normal"⟩ : Ctx).lastHeadingDeg +
        headingDelta (trimL clR90)
          ((⟨some 90, some "deg"⟩ : Quantity).value.getD 0) = 90 from by
      with_unfolding_all decide]
  decide

theorem pc_stop_c3 : parseClause clStop (⟨some "right", 50, 90, "normal"⟩ : Ctx) =
    ([.move "stop" none none none false HIGH_CONFIDENCE "stop"],
     (⟨none, 50, 90, "normal"⟩ : Ctx)) := by
  unfold parseClause parseClauseR
  rw [hq_stop]
  decide

theorem pc_mff2m_c0 :
    parseClause clMff2m (⟨none, 50, 0, "normal"⟩ : Ctx) =
    ([.move "forward" (some "normal") none (some 120000) true DEFAULT_CONFIDENCE
        "move forward for 2 minutes",
      .wait 120000 "ms" HIGH_CONFIDENCE "move forward for 2 minutes",
      .move "stop" none none none false HIGH_CONFIDENCE "move forward for 2 minutes"],
     (⟨some "forward", 50, 0, "normal"⟩ : Ctx)) := by
  unfold parseClause parseClauseR
  rw [hq_mff2m,
    show clauseDur ⟨some 2, some "min"⟩ = 120000 from by with_unfolding_all decide]
  decide

theorem pc_again_cF :
    parseClause clAgain (⟨some "forward", 50, 0, "normal"⟩ : Ctx) =
    ([.unknown "again" LOW_CONFIDENCE], (⟨some "forward", 50, 0, "normal"⟩ : Ctx)) := by
  unfold parseClause parseClauseR
  rw [hq_again]
  decide

theorem pc_hr_c0 : parseClause clHr (⟨none, 50, 0, "normal"⟩ : Ctx) =
    ([.unknown "hello robot" LOW_CONFIDENCE], (⟨none, 50, 0, "normal"⟩ : Ctx)) := by
  unfold parseClause parseClauseR
  rw [hq_hr]
  decide

theorem pc_hello_c0 : parseClause clHello (⟨none, 50, 0, "normal"⟩ : Ctx) =
    ([.unknown "hello" LOW_CONFIDENCE], (⟨none, 50, 0, "normal"⟩ : Ctx)) := by
  unfold parseClause parseClauseR
  rw [hq_hello]
  decide

theorem pc_goodbye_c0 : parseClause clGoodbye (⟨none, 50, 0, "normal"⟩ : Ctx) =
    ([.unknown "goodbye" LOW_CONFIDENCE], (⟨none, 50, 0, "normal"⟩ : Ctx)) := by
  unfold parseClause parseClauseR
  rw [hq_goodbye]
  decide

theorem nrm_c1 :
    urduToEnglishL "move forward 2 meters then turn right a little and rotate 90 degrees then stop".data =
    "move forward 2 meters then turn right a little and rotate 90 degrees then stop".data := by
  decide

theorem spl_c1 :
    splitClauses "move forward 2 meters then turn right a little and rotate 90 degrees then stop".data =
    [clMove, clMf2m, clTurn,
     clTral, clRot, clR90,
     clStop] := by decide

theorem run_c1 :
    runClauses [clMove, clMf2m, clTurn,
      clTral, clRot, clR90,
      clStop] (⟨none, 50, 0, "normal"⟩ : Ctx) =
    ([.unknown "move" LOW_CONFIDENCE,
      .move "forward" (some "normal") (some 2) none true DEFAULT_CONFIDENCE
        "move forward 2 meters",
      .unknown "turn" LOW_CONFIDENCE,
      .turn "right" "normal" true DEFAULT_CONFIDENCE "turn right a little",
      .unknown "rotate" LOW_CONFIDENCE,
      .rotate "cw" 90 "deg" true DEFAULT_CONFIDENCE "rotate 90 degrees",
      .move "stop" none none none false HIGH_CONFIDENCE "stop"],
     (⟨none, 50, 90, "normal"⟩ : Ctx)) := by
  simp only [runClauses, pc_move_c0, pc_mf2m_c0, pc_turn_c1, pc_tral_c1,
    pc_rot_c2, pc_r90_c2, pc_stop_c3, List.append_nil, List.cons_append,
    List.nil_append]

theorem eval_c1 :
    parseCommandStructured
      "move forward 2 meters then turn right a little and rotate 90 degrees then stop"
      initialContext =
    ([.unknown "move" LOW_CONFIDENCE,
      .move "forward" (some "normal") (some 2) none true DEFAULT_CONFIDENCE
        "move forward 2 meters",
      .unknown "turn" LOW_CONFIDENCE,
      .turn "right" "normal" true DEFAULT_CONFIDENCE "turn right a little",
      .unknown "rotate" LOW_CONFIDENCE,
      .rotate "cw" 90 "deg" true DEFAULT_CONFIDENCE "rotate 90 degrees",
      .move "stop" none none none false HIGH_CONFIDENCE "stop"],
     (⟨none, 50, 90, "normal"⟩ : Ctx)) := by
  have hic : initialContext = (⟨none, 50, 0, "normal"⟩ : Ctx) := rfl
  unfold parseCommandStructured
  rw [hic, nrm_c1, spl_c1, run_c1]
  decide

theorem nrm_again : urduToEnglishL "again".data = "again".data := by decide
theorem spl_again : splitClauses "again".data = [clAgain] := by decide

theorem eval_again :
    parseCommandStructured "again" (⟨some "forward", 50, 0, "normal"⟩ : Ctx) =
    ([.unknown "again" LOW_CONFIDENCE,
      .move "forward" none none none true LOW_CONFIDENCE "again"],
     (⟨some "forward", 50, 0, "normal"⟩ : Ctx)) := by
  have hrun : runClauses [clAgain] (⟨some "forward", 50, 0, "normal"⟩ : Ctx) =
      ([.unknown "again" LOW_CONFIDENCE], (⟨some "forward", 50, 0, "normal"⟩ : Ctx)) := by
    simp only [runClauses, pc_again_cF, List.append_nil]
  unfold parseCommandStructured
  rw [nrm_again, spl_again, hrun]
  decide

theorem nrm_hr : urduToEnglishL "hello robot".data = "hello robot".data := by decide
theorem spl_hr : splitClauses "hello robot".data = [clHr] := by decide

theorem eval_hr :
    parseCommandStructured "hello robot" initialContext =
    ([.unknown "hello robot" LOW_CONFIDENCE], initialContext) := by
  have hic : initialContext = (⟨none, 50, 0, "normal"⟩ : Ctx) := rfl
  have hrun : runClauses [clHr] (⟨none, 50, 0, "normal"⟩ : Ctx) =
      ([.unknown "hello robot" LOW_CONFIDENCE], (⟨none, 50, 0, "normal"⟩ : Ctx)) := by
    simp only [runClauses, pc_hr_c0, List.append_nil]
  unfold parseCommandStructured
  rw [hic, nrm_hr, spl_hr, hrun]
  decide

theorem nrm_hg : urduToEnglishL "hello and goodbye".data = "hello and goodbye".data := by
  decide
theorem spl_hg : splitClauses "hello and goodbye".data =
    [clHello, clGoodbye] := by decide

theorem eval_hg :
    parseCommandStructured "hello and goodbye" initialContext =
    ([.unknown "hello" LOW_CONFIDENCE, .unknown "goodbye" LOW_CONFIDENCE],
     initialContext) := by
  have hic : initialContext = (⟨none, 50, 0, "normal"⟩ : Ctx) := rfl
  have hrun : runClauses [clHello, clGoodbye] (⟨none, 50, 0, "normal"⟩ : Ctx) =
      ([.unknown "hello" LOW_CONFIDENCE, .unknown "goodbye" LOW_CONFIDENCE],
       (⟨none, 50, 0, "normal"⟩ : Ctx)) := by
    simp only [runClauses, pc_hello_c0, pc_goodbye_c0, List.append_nil,
      List.cons_append, List.nil_append]
  unfold parseCommandStructured
  rw [hic, nrm_hg, spl_hg, hrun]
  decide

/-! ### Claim theorems -/

/-- C1, counterexample: on the scenario utterance the structured parse
does not return four descriptors (it returns seven: the bare verb
fragments "move", "turn" and "rotate" produced by the secondary split
are classified as unknown descriptors of their own). -/
theorem c1_counterexample :
    (parseCommandStructured
      "move forward 2 meters then turn right a little and rotate 90 degrees then stop"
      initialContext).1.length ≠ 4 := by
  rw [eval_c1]
  decide

/-- C1, amended: the scenario utterance returns seven descriptors - an
unknown for each bare-verb fragment interleaved with the four claimed
commands (move/forward 2 m normal, turn/right normal, rotate/cw 90,
move/stop), in order - and lowering yields exactly the five claimed
tokens move.forward, move.distance:2m, turn.right, rotate.cw.deg:90,
move.stop, in that order. -/
theorem c1_amended :
    parseCommandStructured
      "move forward 2 meters then turn right a little and rotate 90 degrees then stop"
      initialContext =
      ([.unknown "move" LOW_CONFIDENCE,
        .move "forward" (some "normal") (some 2) none true DEFAULT_CONFIDENCE
          "move forward 2 meters",
        .unknown "turn" LOW_CONFIDENCE,
        .turn "right" "normal" true DEFAULT_CONFIDENCE "turn right a little",
        .unknown "rotate" LOW_CONFIDENCE,
        .rotate "cw" 90 "deg" true DEFAULT_CONFIDENCE "rotate 90 degrees",
        .move "stop" none none none false HIGH_CONFIDENCE "stop"],
       { initialContext with lastHeadingDeg := 90 }) ∧
    parseCommandLegacy
      "move forward 2 meters then turn right a little and rotate 90 degrees then stop"
      initialContext =
      (.list ["move.forward", "move.distance:2m", "turn.right",
              "rotate.cw.deg:90", "move.stop"],
       { initialContext with lastHeadingDeg := 90 }) := by
  constructor
  · exact eval_c1
  · unfold parseCommandLegacy
    dsimp only
    rw [eval_c1]
    decide

/-- C2, counterexample: lowering the descriptors produced by the clause
"move forward for 2 minutes" does not give the four-token sequence the
claim states (the structured wait and stop descriptors lower again after
the duration-bearing move token already emitted them). -/
theorem c2_counterexample :
    legacyLower (parseClause "move forward for 2 minutes".data initialContext).1 ≠
      .list ["move.forward", "move.duration:120000", "wait:120000", "move.stop"] := by
  have hic : initialContext = (⟨none, 50, 0, "normal"⟩ : Ctx) := rfl
  rw [hic, pc_mff2m_c0]
  decide

/-- C2, amended: the clause "move forward for 2 minutes" classifies to
the three descriptors move(duration 120000 ms)/wait(120000)/move-stop,
and lowering them yields six tokens: move.forward, move.duration:120000,
wait:120000, move.stop and then once more wait:120000, move.stop (the
duration math 2 x 60 x 1000 = 120000 is as claimed; the wait/stop pair
is emitted twice because the structured wait and stop descriptors also
lower). -/
theorem c2_amended :
    parseClause "move forward for 2 minutes".data initialContext =
      ([.move "forward" (some "normal") none (some 120000) true DEFAULT_CONFIDENCE
          "move forward for 2 minutes",
        .wait 120000 "ms" HIGH_CONFIDENCE "move forward for 2 minutes",
        .move "stop" none none none false HIGH_CONFIDENCE "move forward for 2 minutes"],
       { initialContext with lastDirection := some "forward" }) ∧
    legacyLower (parseClause "move forward for 2 minutes".data initialContext).1 =
      .list ["move.forward", "move.duration:120000", "wait:120000", "move.stop",
             "wait:120000", "move.stop"] := by
  have hic : initialContext = (⟨none, 50, 0, "normal"⟩ : Ctx) := rfl
  constructor
  · exact pc_mff2m_c0
  · rw [hic, pc_mff2m_c0]
    decide

/-- C3, code evaluation at the failing inputs: the Normalizer leaves an
Urdu lexicon word unchanged when it stands alone surrounded by spaces or
string edges (the \b assertions of the lexicon regexes never hold next
to a space or a string edge because Urdu letters are not word characters
to JavaScript), and only substitutes it in the word-flanked position the
lexicon never sees in natural text. -/
theorem c3_code_eval :
    urduToEnglish "2 میٹر" = "2 میٹر" ∧
    urduToEnglish "آگے" = "آگے" ∧
    urduToEnglish "2میٹر2" = "2m2" ∧
    urduToEnglish "hello robot" = "hello robot" := by
  refine ⟨by decide, by decide, by decide, by decide⟩

/-- C4, counterexample: segmenting "turn left 10 degrees rotate 90
degrees" does not yield exactly the two claimed clauses. -/
theorem c4_counterexample :
    splitClausesS "turn left 10 degrees rotate 90 degrees" ≠
      ["turn left 10 degrees", "rotate 90 degrees"] := by decide

/-- C4, amended: segmenting "turn left 10 degrees rotate 90 degrees"
yields four clauses: the splitter re-attaches the triggering verb to the
start of the new segment but also keeps the captured bare verb as a
clause of its own, so the result is "turn", "turn left 10 degrees",
"rotate", "rotate 90 degrees", in that order. -/
theorem c4_amended :
    splitClausesS "turn left 10 degrees rotate 90 degrees" =
      ["turn", "turn left 10 degrees", "rotate", "rotate 90 degrees"] := by decide

/-- C5, counterexample: with lastDirection = forward remembered, parsing
"again" does not return exactly one descriptor. -/
theorem c5_counterexample :
    (parseCommandStructured "again"
      { initialContext with lastDirection := some "forward" }).1.length ≠ 1 := by
  rw [show ({ initialContext with lastDirection := some "forward" } : Ctx) =
    (⟨some "forward", 50, 0, "normal"⟩ : Ctx) from rfl, eval_again]
  decide

/-- C5, amended: with lastDirection = forward remembered, parsing
"again" returns two descriptors: the unknown produced by the clause
"again" itself, followed by the synthesized move/forward at low
confidence appended by the ellipsis fallback; the context is unchanged. -/
theorem c5_amended :
    parseCommandStructured "again"
      { initialContext with lastDirection := some "forward" } =
      ([.unknown "again" LOW_CONFIDENCE,
        .move "forward" none none none true LOW_CONFIDENCE "again"],
       { initialContext with lastDirection := some "forward" }) := by
  exact eval_again

/-- C6, counterexample: the utterance "hello and goodbye" classifies
every clause to unknown and the ellipsis fallback does not apply, yet
the parse call returns two unknown descriptors, not one. -/
theorem c6_counterexample :
    (∀ d ∈ (parseCommandStructured "hello and goodbye" initialContext).1,
      d.isUnknown = true) ∧
    (parseCommandStructured "hello and goodbye" initialContext).1.length ≠ 1 := by
  constructor
  · rw [eval_hg]
    decide
  · rw [eval_hg]
    decide

/-- C6, amended: when every produced descriptor is unknown the parse
call returns one unknown descriptor per clause (so multi-clause noise
yields several); in particular "hello robot", a single clause, returns
exactly one unknown descriptor at confidence 0.5, strictly below the
generic default 0.85, with Context Memory unchanged. -/
theorem c6_amended :
    (∀ (s : String) (ctx : Ctx),
        (∀ d ∈ (parseCommandStructured s ctx).1, d.isUnknown = true) →
        (parseCommandStructured s ctx).1.length =
          (splitClauses (urduToEnglishL s.data)).length) ∧
    parseCommandStructured "hello robot" initialContext =
      ([.unknown "hello robot" LOW_CONFIDENCE], initialContext) ∧
    LOW_CONFIDENCE < DEFAULT_CONFIDENCE := by
  refine ⟨?_, eval_hr, by decide⟩
  intro s ctx h
  have hmain := structured_all_unknown_run h
  rcases (parseCommandStructured_cases s ctx).2 with he | he
  · rw [he]
    exact (runClauses_unknown _ _ hmain).2
  · exfalso
    have hm := h (.move ((runClauses (splitClauses (urduToEnglishL s.data))
        ctx).2.lastDirection.getD "") none none none true LOW_CONFIDENCE "again")
      (by rw [he]; exact List.mem_append_right _ (List.mem_singleton_self _))
    simp [Desc.isUnknown] at hm

/-- C6, witness for the amended universal part: on "hello robot" the
hypothesis holds and the descriptor count equals the clause count. -/
theorem c6_witness :
    (∀ d ∈ (parseCommandStructured "hello robot" initialContext).1,
      d.isUnknown = true) ∧
    (parseCommandStructured "hello robot" initialContext).1.length =
      (splitClauses (urduToEnglishL "hello robot".data)).length :=
  ⟨by rw [eval_hr]; decide,
   c6_amended.1 "hello robot" initialContext (by rw [eval_hr]; decide)⟩

/-- An unknown descriptor contributes no tokens (the continue of the
legacy adapter's loop). -/
theorem lowerOne_of_unknown (c : Desc) (h : c.isUnknown = true) : lowerOne c = [] := by
  cases c <;> first
    | rfl
    | simp [Desc.isUnknown] at h

/-- Every descriptor a clause can produce is unknown or lowers to at
least one token (in particular every safety descriptor the classifier
builds carries the estop subtype, the only one its lowering arm emits
a token for). -/
theorem parseClauseR_mem_lower (raw : List Char) (ctx : Ctx) (ds : List Desc)
    (ctx' : Ctx) (hp : parseClauseR raw ctx = (ds, ctx')) :
    ∀ c ∈ ds, c.isUnknown = true ∨ lowerOne c ≠ [] := by
  unfold parseClauseR at hp
  by_cases hc1 : testR safetyPats raw = true
  · rw [if_pos hc1] at hp
    injection hp with h1 h2; subst h1
    intro c hc
    simp only [List.mem_cons, List.not_mem_nil, or_false] at hc
    subst hc; right; simp [lowerOne]
  rw [if_neg hc1] at hp
  by_cases hc2 : testR stopPats raw = true
  · rw [if_pos hc2] at hp
    injection hp with h1 h2; subst h1
    intro c hc
    simp only [List.mem_cons, List.not_mem_nil, or_false] at hc
    subst hc; right; simp [lowerOne]
  rw [if_neg hc2] at hp
  by_cases hc3 : (testR speedPats raw && (extractQuantity raw).value.isSome &&
      ((extractQuantity raw).unit == some "%" || (extractQuantity raw).unit == none)) = true
  · rw [if_pos hc3] at hp
    injection hp with h1 h2; subst h1
    intro c hc
    simp only [List.mem_cons, List.not_mem_nil, or_false] at hc
    subst hc; right; simp [lowerOne]
  rw [if_neg hc3] at hp
  by_cases hc4 : (testR forPats raw && (extractQuantity raw).value.isSome &&
      ((extractQuantity raw).unit == some "s" || (extractQuantity raw).unit == some "min") &&
      (clauseDir raw).isSome) = true
  · rw [if_pos hc4] at hp
    injection hp with h1 h2; subst h1
    intro c hc
    simp only [List.mem_cons, List.not_mem_nil, or_false] at hc
    rcases hc with rfl | rfl | rfl <;> (right; simp [lowerOne])
  rw [if_neg hc4] at hp
  by_cases hc5 : ((extractQuantity raw).value.isSome &&
      ((extractQuantity raw).unit == some "m" || (extractQuantity raw).unit == some "cm") &&
      (clauseDir raw).isSome) = true
  · rw [if_pos hc5] at hp
    injection hp with h1 h2; subst h1
    intro c hc
    simp only [List.mem_cons, List.not_mem_nil, or_false] at hc
    subst hc; right; simp [lowerOne]
  rw [if_neg hc5] at hp
  by_cases hc6 : (testR rotatePats raw && (extractQuantity raw).value.isSome &&
      (extractQuantity raw).unit == some "deg") = true
  · rw [if_pos hc6] at hp
    injection hp with h1 h2; subst h1
    intro c hc
    simp only [List.mem_cons, List.not_mem_nil, or_false] at hc
    subst hc; right; simp [lowerOne]
  rw [if_neg hc6] at hp
  by_cases hc7 : ((testR turnPats raw || testR sharpPats raw) &&
      (testR leftPats raw || testR rightPats raw)) = true
  · rw [if_pos hc7] at hp
    injection hp with h1 h2; subst h1
    intro c hc
    simp only [List.mem_cons, List.not_mem_nil, or_false] at hc
    subst hc; right; simp [lowerOne]
  rw [if_neg hc7] at hp
  by_cases hc8 : (testR forwardPats raw || testR backwardPats raw ||
      testR leftPats raw || testR rightPats raw) = true
  · rw [if_pos hc8] at hp
    injection hp with h1 h2; subst h1
    intro c hc
    simp only [List.mem_cons, List.not_mem_nil, or_false] at hc
    subst hc; right; simp [lowerOne]
  rw [if_neg hc8] at hp
  by_cases hc9 : testR cameraPats raw = true
  · rw [if_pos hc9] at hp
    injection hp with h1 h2; subst h1
    intro c hc
    simp only [List.mem_cons, List.not_mem_nil, or_false] at hc
    subst hc; right; simp [lowerOne]
  rw [if_neg hc9] at hp
  by_cases hc10 : testR videoPats raw = true
  · rw [if_pos hc10] at hp
    injection hp with h1 h2; subst h1
    intro c hc
    simp only [List.mem_cons, List.not_mem_nil, or_false] at hc
    subst hc; right; simp [lowerOne]
  rw [if_neg hc10] at hp
  by_cases hc11 : testR zoomPats raw = true
  · rw [if_pos hc11] at hp
    injection hp with h1 h2; subst h1
    intro c hc
    simp only [List.mem_cons, List.not_mem_nil, or_false] at hc
    subst hc; right; simp [lowerOne]
  rw [if_neg hc11] at hp
  by_cases hc12 : testR sirenPats raw = true
  · rw [if_pos hc12] at hp
    injection hp with h1 h2; subst h1
    intro c hc
    simp only [List.mem_cons, List.not_mem_nil, or_false] at hc
    subst hc; right; simp [lowerOne]
  rw [if_neg hc12] at hp
  by_cases hc13 : testR lightPats raw = true
  · rw [if_pos hc13] at hp
    injection hp with h1 h2; subst h1
    intro c hc
    simp only [List.mem_cons, List.not_mem_nil, or_false] at hc
    subst hc; right; simp [lowerOne]
  rw [if_neg hc13] at hp
  by_cases hc14 : testR sprayPats raw = true
  · rw [if_pos hc14] at hp
    injection hp with h1 h2; subst h1
    intro c hc
    simp only [List.mem_cons, List.not_mem_nil, or_false] at hc
    subst hc; right; simp [lowerOne]
  rw [if_neg hc14] at hp
  by_cases hc15 : testR taserPats raw = true
  · rw [if_pos hc15] at hp
    injection hp with h1 h2; subst h1
    intro c hc
    simp only [List.mem_cons, List.not_mem_nil, or_false] at hc
    subst hc; right; simp [lowerOne]
  rw [if_neg hc15] at hp
  injection hp with h1 h2; subst h1
  intro c hc
  simp only [List.mem_cons, List.not_mem_nil, or_false] at hc
  subst hc; left; rfl

theorem runClauses_mem_lower (cls : List (List Char)) (ctx : Ctx) :
    ∀ c ∈ (runClauses cls ctx).1, c.isUnknown = true ∨ lowerOne c ≠ [] := by
  induction cls generalizing ctx with
  | nil => intro c hc; simp [runClauses] at hc
  | cons cl cls ih =>
    intro c hc
    have hsplit : (runClauses (cl :: cls) ctx).1 =
        (parseClause cl ctx).1 ++ (runClauses cls (parseClause cl ctx).2).1 := rfl
    rw [hsplit] at hc
    rcases List.mem_append.mp hc with h1 | h1
    · exact parseClauseR_mem_lower (trimL cl) ctx _ _ rfl c h1
    · exact ih _ c h1

theorem structured_mem_lower (s : String) (ctx : Ctx) :
    ∀ c ∈ (parseCommandStructured s ctx).1, c.isUnknown = true ∨ lowerOne c ≠ [] := by
  intro c hc
  rcases (parseCommandStructured_cases s ctx).2 with he | he <;> rw [he] at hc
  · exact runClauses_mem_lower _ _ c hc
  · rcases List.mem_append.mp hc with h1 | h1
    · exact runClauses_mem_lower _ _ c h1
    · simp only [List.mem_cons, List.not_mem_nil, or_false] at h1
      subst h1; right; simp [lowerOne]

/-- C7, counterexample: a descriptor list consisting only of unknown
descriptors lowers to the bare string "unknown", which is not the
one-element token list the claim states (callers wrap the string with
Array.isArray before use). -/
theorem c7_counterexample :
    legacyLower [Desc.unknown "hello robot" LOW_CONFIDENCE] = LegacyOut.str "unknown" ∧
    legacyLower [Desc.unknown "hello robot" LOW_CONFIDENCE] ≠
      LegacyOut.list ["unknown"] := by
  constructor
  · rfl
  · decide

/-- C7, amended: the lowering adapter maps every non-unknown descriptor
the parser produces to at least one instruction token, unknown
descriptors contribute no tokens, and a descriptor list consisting only
of unknown descriptors lowers to the single terminal string "unknown"
(a bare string, not a one-element token list). -/
theorem c7_amended :
    (∀ (s : String) (ctx : Ctx) (c : Desc), c ∈ (parseCommandStructured s ctx).1 →
      c.isUnknown = false → 1 ≤ (lowerOne c).length) ∧
    (∀ c : Desc, c.isUnknown = true → lowerOne c = []) ∧
    (∀ cs : List Desc, (∀ c ∈ cs, c.isUnknown = true) →
      legacyLower cs = .str "unknown") := by
  refine ⟨?_, lowerOne_of_unknown, ?_⟩
  · intro s ctx c hm hu
    rcases structured_mem_lower s ctx c hm with h | h
    · rw [h] at hu; cases hu
    · have := List.length_pos.mpr h
      omega
  · intro cs h
    have hflat : (cs.map lowerOne).flatten = [] := by
      induction cs with
      | nil => rfl
      | cons c cs ih =>
        simp only [List.map_cons, List.flatten_cons]
        rw [lowerOne_of_unknown c (h c (List.mem_cons_self c cs)),
          ih (fun d hd => h d (List.mem_cons_of_mem c hd))]
        rfl
    unfold legacyLower
    rw [hflat]
    rfl

/-- C7, witness: concrete instances of all three amended parts - the
move/stop descriptor produced for the utterance "stop" lowers to at
least one token, an unknown descriptor lowers to no tokens, and an
all-unknown list lowers to the terminal string. -/
theorem c7_witness :
    1 ≤ (lowerOne (Desc.move "stop" none none none false HIGH_CONFIDENCE "stop")).length ∧
    lowerOne (Desc.unknown "x" LOW_CONFIDENCE) = [] ∧
    legacyLower [Desc.unknown "x" LOW_CONFIDENCE] = .str "unknown" :=
  ⟨c7_amended.1 "stop" initialContext _ (by decide) (by decide),
   c7_amended.2.1 _ (by decide),
   c7_amended.2.2 _ (by decide)⟩

/-! ### Percent short-circuit (C8) -/

theorem findSome_mem {α β : Type} {f : α → Option β} {l : List α} {b : β}
    (h : l.findSome? f = some b) : ∃ a ∈ l, f a = some b := by
  induction l with
  | nil => simp [List.findSome?] at h
  | cons x xs ih =>
    cases hx : f x with
    | some y =>
      simp only [List.findSome?_cons, hx] at h
      exact ⟨x, List.mem_cons_self x xs, by rw [hx, h]⟩
    | none =>
      simp only [List.findSome?_cons, hx] at h
      obtain ⟨a, ha, hfa⟩ := ih h
      exact ⟨a, List.mem_cons_of_mem x ha, hfa⟩

theorem takeWhile_all {p : Char → Bool} : ∀ l : List Char, (l.takeWhile p).all p = true := by
  intro l
  induction l with
  | nil => rfl
  | cons c cs ih =>
    rw [List.takeWhile]
    cases hc : p c with
    | true => simp [List.all_cons, hc, ih]
    | false => rfl

theorem all_take {p : Char → Bool} {l : List Char} (h : l.all p = true) (k : Nat) :
    (l.take k).all p = true := by
  induction l generalizing k with
  | nil => simp
  | cons c cs ih =>
    cases k with
    | zero => rfl
    | succ k =>
      simp only [List.all_cons, Bool.and_eq_true] at h
      simpa [List.take, List.all_cons, h.1] using ih h.2 k

theorem takeWhile_of_all {p : Char → Bool} {l : List Char} (h : l.all p = true) :
    l.takeWhile p = l := by
  induction l with
  | nil => rfl
  | cons c cs ih =>
    simp only [List.all_cons, Bool.and_eq_true] at h
    rw [List.takeWhile, h.1]
    simp [ih h.2]

/-- A successful percent-pattern match at one position captures a
non-empty string of at most three digits into exactly one of the two
groups. -/
theorem pctAt_digits {prev : Option Char} {s : List Char}
    {g1 g2 : Option (List Char)} (h : pctAt prev s = some (g1, g2)) :
    ∃ d, (g1 = some d ∧ g2 = none ∨ g1 = none ∧ g2 = some d) ∧
      d ≠ [] ∧ d.all isDigitC = true := by
  unfold pctAt at h
  by_cases hb : bnd prev s.head? = true
  · rw [if_pos hb] at h
    simp only [] at h
    have hks : ∀ k ∈ (List.range (min 3 (s.takeWhile isDigitC).length)).reverse.map
        (fun k => k + 1), k ≠ 0 ∧ k ≤ (s.takeWhile isDigitC).length := by
      intro k hk
      simp only [List.mem_map, List.mem_reverse, List.mem_range] at hk
      obtain ⟨j, hj, rfl⟩ := hk
      omega
    have hd : ∀ k, k ≠ 0 → k ≤ (s.takeWhile isDigitC).length →
        (s.takeWhile isDigitC).take k ≠ [] ∧
        ((s.takeWhile isDigitC).take k).all isDigitC = true := by
      intro k hk0 hkl
      constructor
      · intro he
        have := congrArg List.length he
        simp only [List.length_take, List.length_nil] at this
        omega
      · exact all_take (takeWhile_all s) k
    cases h1 : ((List.range (min 3 (s.takeWhile isDigitC).length)).reverse.map
        (fun k => k + 1)).findSome? (fun k =>
          if ((s.drop k).dropWhile isWs).head? == some '%'
          then some ((s.takeWhile isDigitC).take k) else none) with
    | some d =>
      rw [h1] at h
      simp only [Option.some.injEq, Prod.mk.injEq] at h
      obtain ⟨e1, e2⟩ := h
      obtain ⟨k, hk, hfk⟩ := findSome_mem h1
      obtain ⟨hk0, hkl⟩ := hks k hk
      by_cases hpc : (((s.drop k).dropWhile isWs).head? == some '%') = true
      · rw [if_pos hpc] at hfk
        injection hfk with hd1
        subst hd1
        exact ⟨_, Or.inl ⟨e1.symm, e2.symm⟩, (hd k hk0 hkl).1, (hd k hk0 hkl).2⟩
      · rw [if_neg hpc] at hfk; cases hfk
    | none =>
      rw [h1] at h
      simp only [] at h
      cases h2 : ((List.range (min 3 (s.takeWhile isDigitC).length)).reverse.map
          (fun k => k + 1)).findSome? (fun k =>
            match stripCI ("percent".data) ((s.drop k).dropWhile isWs) with
            | some (m2, r2) =>
              if bnd m2.getLast? r2.head? then some ((s.takeWhile isDigitC).take k) else none
            | none => none) with
      | some d =>
        rw [h2] at h
        simp only [Option.some.injEq, Prod.mk.injEq] at h
        obtain ⟨e1, e2⟩ := h
        obtain ⟨k, hk, hfk⟩ := findSome_mem h2
        obtain ⟨hk0, hkl⟩ := hks k hk
        cases h3 : stripCI ("percent".data) ((s.drop k).dropWhile isWs) with
        | some mr =>
          obtain ⟨m2, r2⟩ := mr
          rw [h3] at hfk
          simp only [] at hfk
          by_cases hb2 : bnd m2.getLast? r2.head? = true
          · rw [if_pos hb2] at hfk
            injection hfk with hd1
            subst hd1
            exact ⟨_, Or.inr ⟨e1.symm, e2.symm⟩, (hd k hk0 hkl).1, (hd k hk0 hkl).2⟩
          · rw [if_neg hb2] at hfk; cases hfk
        | none =>
          rw [h3] at hfk
          simp only [] at hfk
          exact Option.noConfusion hfk
      | none => rw [h2] at h; cases h
  · rw [if_neg hb] at h; cases h

/-- The leftmost percent-pattern match inherits the group shape. -/
theorem findPct_digits {prev : Option Char} {s : List Char}
    {g1 g2 : Option (List Char)} (h : findPct prev s = some (g1, g2)) :
    ∃ d, (g1 = some d ∧ g2 = none ∨ g1 = none ∧ g2 = some d) ∧
      d ≠ [] ∧ d.all isDigitC = true := by
  induction s generalizing prev with
  | nil => simp [findPct] at h
  | cons c cs ih =>
    rw [findPct] at h
    cases hp : pctAt prev (c :: cs) with
    | some g =>
      rw [hp] at h
      simp only [Option.some.injEq] at h
      rw [h] at hp
      exact pctAt_digits hp
    | none => rw [hp] at h; exact ih h

/-- C8: quantity extraction tries the percent pattern first and, on any
match, returns the captured value clamped to [0,100] with unit percent,
short-circuiting the generic numeral-and-unit inference; in particular
"set speed 45%" gives value 45, unit percent, and never unit meters. -/
theorem c8_percent_short_circuit :
    (∀ (clause : List Char) (g1 g2 : Option (List Char)),
      findPct none clause = some (g1, g2) →
      ∃ p : ℕ, extractQuantity clause = ⟨some (clamp (p : ℚ) 0 100), some "%"⟩) ∧
    extractQuantityS "set speed 45%" = ⟨some 45, some "%"⟩ ∧
    (extractQuantityS "set speed 45%").unit ≠ some "m" := by
  refine ⟨?_, by decide, by decide⟩
  intro clause g1 g2 hg
  obtain ⟨d, hcase, hne, hall⟩ := findPct_digits hg
  have hde : d.isEmpty = false := by
    cases d with
    | nil => exact absurd rfl hne
    | cons x xs => rfl
  have hor : jsOrStr g1 g2 = some d := by
    rcases hcase with ⟨h1, h2⟩ | ⟨h1, h2⟩ <;> subst h1 <;> subst h2
    · simp [jsOrStr, hde]
    · simp [jsOrStr]
  have hparse : parseIntO (jsOrStr g1 g2) = some (parseNatL d) := by
    rw [hor]
    simp [parseIntO, takeWhile_of_all hall, hde]
  refine ⟨parseNatL d, ?_⟩
  simp only [extractQuantity, hg, hparse]

/-- C8, witness: the universal part applied to the clause
"set speed 45%", whose percent pattern matches with capture group 45. -/
theorem c8_witness :
    ∃ p : ℕ, extractQuantity "set speed 45%".data =
      ⟨some (clamp (p : ℚ) 0 100), some "%"⟩ :=
  c8_percent_short_circuit.1 "set speed 45%".data (some "45".data) none (by decide)

/-- C9: Context Memory is unchanged by any parse call that yields only
unknown descriptors; all four fields are identical before and after. -/
theorem c9_context_unchanged :
    ∀ (s : String) (ctx : Ctx),
      (∀ d ∈ (parseCommandStructured s ctx).1, d.isUnknown = true) →
      (parseCommandStructured s ctx).2 = ctx := by
  intro s ctx h
  have hmain := structured_all_unknown_run h
  rw [(parseCommandStructured_cases s ctx).1]
  exact (runClauses_unknown _ _ hmain).1

/-- C9, witness: the all-unknown hypothesis holds at "hello robot" and
the context is returned unchanged there. -/
theorem c9_witness :
    (∀ d ∈ (parseCommandStructured "hello robot" initialContext).1,
      d.isUnknown = true) ∧
    (parseCommandStructured "hello robot" initialContext).2 = initialContext :=
  ⟨by rw [eval_hr]; decide,
   c9_context_unchanged "hello robot" initialContext (by rw [eval_hr]; decide)⟩

/-! ### Normalizer idempotence (C10)

The lexicon's patterns consist solely of characters that are non-word
under the ASCII \b and are fixed points of the ASCII case fold that are
not the image of any other character ("sealed" characters); the
replacements are non-empty and share no character, even up to case
folding, with any pattern.  Under these conditions (checked below by
evaluation on the concrete lexicon) a global replacement never creates
a new match site for any entry, so the whole normalization pass is
idempotent. -/

/-- A character that ASCII case folding maps to itself and that no other
character folds onto, and that is a non-word character under the ASCII
word-boundary assertion. -/
def sealedChar (c : Char) : Bool :=
  !isWordChar c && (c.toNat < 65 || 122 < c.toNat)

/-- All alternatives of an alternation are made of sealed characters. -/
def sealedAlts (alts : List Pat) : Bool :=
  alts.all (fun a => (patChars a).all sealedChar)

/-- The input character last seen before the current scan position:
the last character of the already-consumed prefix, or the incoming
prev at the start. -/
def prevAt (prev : Option Char) : List Char → Option Char
  | [] => prev
  | c :: u => prevAt (some c) u

/-- The alternation matches at no position of the text (with the given
character preceding the text). -/
def noMatchF (alts : List Pat) : Option Char → List Char → Bool
  | _, [] => true
  | prev, c :: cs => (tryAlts alts prev (c :: cs)).isNone && noMatchF alts (some c) cs

theorem toNat_ofNat_small {n : Nat} (h : n < 55296) : (Char.ofNat n).toNat = n := by
  unfold Char.ofNat
  rw [dif_pos (Or.inl h)]
  rfl

/-- A sealed character is matched case-insensitively only by itself. -/
theorem charEqCI_rigid {p c : Char} (hp : sealedChar p = true)
    (h : charEqCI c p = true) : c = p := by
  have hrange : p.toNat < 65 ∨ 122 < p.toNat := by
    simp only [sealedChar, Bool.and_eq_true, Bool.or_eq_true, decide_eq_true_eq] at hp
    exact hp.2
  have hlp : lowerA p = p := by
    unfold lowerA
    rw [if_neg]
    simp only [Bool.and_eq_true, decide_eq_true_eq, not_and]
    omega
  rw [charEqCI, hlp] at h
  have hcp : lowerA c = p := eq_of_beq h
  by_cases hc : (65 ≤ c.toNat && c.toNat ≤ 90) = true
  · exfalso
    simp only [Bool.and_eq_true, decide_eq_true_eq] at hc
    have hl : (lowerA c).toNat = c.toNat + 32 := by
      unfold lowerA
      rw [if_pos (by simp only [Bool.and_eq_true, decide_eq_true_eq]; exact hc)]
      exact toNat_ofNat_small (by omega)
    rw [hcp] at hl
    omega
  · rw [lowerA, if_neg hc] at hcp
    exact hcp

theorem charEqCI_refl (c : Char) : charEqCI c c = true := by
  simp [charEqCI]

theorem sealedChar_not_word {c : Char} (h : sealedChar c = true) :
    isWordChar c = false := by
  simp only [sealedChar, Bool.and_eq_true, Bool.not_eq_true'] at h
  exact h.1

theorem sealed_isWordO_head {P : List Char} (h : P.all sealedChar = true) :
    isWordO P.head? = false := by
  cases P with
  | nil => rfl
  | cons p P' =>
    simp only [List.all_cons, Bool.and_eq_true] at h
    simpa [isWordO] using sealedChar_not_word h.1

theorem sealed_isWordO_getLast {P : List Char} (h : P.all sealedChar = true) :
    isWordO P.getLast? = false := by
  induction P with
  | nil => rfl
  | cons p P' ih =>
    simp only [List.all_cons, Bool.and_eq_true] at h
    cases P' with
    | nil => simpa [isWordO] using sealedChar_not_word h.1
    | cons q P'' =>
      rw [List.getLast?_cons_cons]
      exact ih h.2

theorem sealed_head {a : Pat} (h : (patChars a).all sealedChar = true) :
    sealedChar a.1 = true := by
  simp only [patChars, List.all_cons, Bool.and_eq_true] at h
  exact h.1

theorem sealedAlts_mem {alts : List Pat} {a : Pat} (h : sealedAlts alts = true)
    (ha : a ∈ alts) : (patChars a).all sealedChar = true :=
  List.all_eq_true.mp h a ha

theorem bnd_left_false {a b : Option Char} (h : isWordO a = false) :
    bnd a b = isWordO b := by
  unfold bnd
  rw [h]
  cases isWordO b <;> rfl

/-- Stripping an all-sealed pattern matches only the pattern itself. -/
theorem stripCI_rigid {P : List Char} (hP : P.all sealedChar = true) :
    ∀ {s m v : List Char}, stripCI P s = some (m, v) → m = P ∧ s = P ++ v := by
  induction P with
  | nil =>
    intro s m v h
    simp only [stripCI, Option.some.injEq, Prod.mk.injEq] at h
    obtain ⟨h1, h2⟩ := h
    subst h1; subst h2
    exact ⟨rfl, rfl⟩
  | cons p P' ih =>
    intro s m v h
    simp only [List.all_cons, Bool.and_eq_true] at hP
    cases s with
    | nil => simp [stripCI] at h
    | cons c cs =>
      simp only [stripCI] at h
      by_cases hce : charEqCI c p = true
      · rw [if_pos hce] at h
        have hcp : c = p := charEqCI_rigid hP.1 hce
        cases hm : stripCI P' cs with
        | none => rw [hm] at h; cases h
        | some mr =>
          obtain ⟨m', v'⟩ := mr
          rw [hm] at h
          simp only [Option.some.injEq, Prod.mk.injEq] at h
          obtain ⟨h1, h2⟩ := h
          obtain ⟨hm1, hs1⟩ := ih hP.2 hm
          subst h1; subst h2; subst hcp
          rw [hm1, hs1]
          exact ⟨rfl, rfl⟩
      · rw [if_neg hce] at h; cases h

theorem stripCI_refl : ∀ (P w : List Char), stripCI P (P ++ w) = some (P, w) := by
  intro P w
  induction P with
  | nil => rfl
  | cons p P' ih => simp [stripCI, charEqCI_refl, ih]

theorem tryAlts_mem {alts : List Pat} {prev : Option Char} {s : List Char}
    {mr : List Char × List Char} (h : tryAlts alts prev s = some mr) :
    ∃ a ∈ alts, matchAlt a prev s = some mr := by
  induction alts with
  | nil => simp [tryAlts] at h
  | cons a as ih =>
    simp only [tryAlts] at h
    cases hm : matchAlt a prev s with
    | some mr' =>
      rw [hm] at h
      simp only [] at h
      exact ⟨a, List.mem_cons_self a as, hm.trans h⟩
    | none =>
      rw [hm] at h
      simp only [] at h
      obtain ⟨b, hb, hmb⟩ := ih h
      exact ⟨b, List.mem_cons_of_mem a hb, hmb⟩

theorem tryAlts_isSome_of {alts : List Pat} {prev : Option Char} {s : List Char}
    {a : Pat} {mr : List Char × List Char} (ha : a ∈ alts)
    (hm : matchAlt a prev s = some mr) : (tryAlts alts prev s).isSome = true := by
  induction alts with
  | nil => cases ha
  | cons b bs ih =>
    cases hb : matchAlt b prev s with
    | some mr' => simp [tryAlts, hb]
    | none =>
      have ha' : a ∈ bs := by
        rcases List.mem_cons.mp ha with rfl | h'
        · rw [hb] at hm; cases hm
        · exact h'
      simp only [tryAlts, hb]
      exact ih ha'

/-- A successful sealed-alternative match consumed exactly the pattern
text and both boundary assertions held around it. -/
theorem matchAlt_rigid {a : Pat} {prev : Option Char} {s m r : List Char}
    (hsa : (patChars a).all sealedChar = true)
    (h : matchAlt a prev s = some (m, r)) :
    m = patChars a ∧ s = patChars a ++ r ∧
      bnd prev (patChars a).head? = true ∧
      bnd (patChars a).getLast? r.head? = true := by
  unfold matchAlt at h
  cases hs : stripCI (patChars a) s with
  | none => rw [hs] at h; cases h
  | some mr =>
    obtain ⟨m0, r0⟩ := mr
    rw [hs] at h
    simp only [] at h
    by_cases hb : (bnd prev m0.head? && bnd m0.getLast? r0.head?) = true
    · rw [if_pos hb] at h
      simp only [Option.some.injEq, Prod.mk.injEq] at h
      obtain ⟨h1, h2⟩ := h
      subst h1; subst h2
      obtain ⟨hm0, hsplit⟩ := stripCI_rigid hsa hs
      subst hm0
      simp only [Bool.and_eq_true] at hb
      exact ⟨rfl, hsplit, hb.1, hb.2⟩
    · rw [if_neg hb] at h; cases h

/-- Conversely, the literal pattern with both boundaries satisfied is
a match. -/
theorem matchAlt_of {a : Pat} {prev : Option Char} {w : List Char}
    (h1 : bnd prev (patChars a).head? = true)
    (h2 : bnd (patChars a).getLast? w.head? = true) :
    matchAlt a prev (patChars a ++ w) = some (patChars a, w) := by
  unfold matchAlt
  rw [stripCI_refl]
  simp [h1, h2]

theorem matchAlt_nonword_prev {a : Pat} {prev : Option Char} {s : List Char}
    (hsa : (patChars a).all sealedChar = true) (hp : isWordO prev = false) :
    matchAlt a prev s = none := by
  unfold matchAlt
  cases hs : stripCI (patChars a) s with
  | none => rfl
  | some mr =>
    obtain ⟨m0, r0⟩ := mr
    obtain ⟨hm0, _⟩ := stripCI_rigid hsa hs
    have hb : bnd prev m0.head? = false := by
      rw [hm0]
      unfold bnd
      rw [hp, sealed_isWordO_head hsa]
      rfl
    simp [hb]

/-- When the preceding character is a non-word character, no sealed
alternative matches (the leading boundary fails). -/
theorem tryAlts_nonword_prev {alts : List Pat} {prev : Option Char} {s : List Char}
    (hs : sealedAlts alts = true) (hp : isWordO prev = false) :
    tryAlts alts prev s = none := by
  induction alts with
  | nil => rfl
  | cons a as ih =>
    simp only [sealedAlts, List.all_cons, Bool.and_eq_true] at hs
    simp only [tryAlts, matchAlt_nonword_prev hs.1 hp]
    exact ih hs.2

theorem matchAlt_head_clash {a : Pat} {prev : Option Char} {c : Char}
    {rest : List Char} (hce : charEqCI c a.1 = false) :
    matchAlt a prev (c :: rest) = none := by
  unfold matchAlt
  have hs : stripCI (patChars a) (c :: rest) = none := by
    simp [patChars, stripCI, hce]
  rw [hs]

/-- No sealed alternative matches at a word character (the first pattern
character could only be matched by itself, which is non-word). -/
theorem tryAlts_word_head {alts : List Pat} {prev : Option Char} {d : Char}
    {rest : List Char} (hs : sealedAlts alts = true) (hd : isWordChar d = true) :
    tryAlts alts prev (d :: rest) = none := by
  induction alts with
  | nil => rfl
  | cons a as ih =>
    simp only [sealedAlts, List.all_cons, Bool.and_eq_true] at hs
    have hce : charEqCI d a.1 = false := by
      by_cases hc : charEqCI d a.1 = true
      · exfalso
        have := charEqCI_rigid (sealed_head hs.1) hc
        rw [this] at hd
        rw [sealedChar_not_word (sealed_head hs.1)] at hd
        cases hd
      · exact Bool.not_eq_true _ ▸ (by simpa using hc)
    simp only [tryAlts, matchAlt_head_clash hce]
    exact ih hs.2

/-- No alternative matches at a character that clashes with every
alternative's first pattern character. -/
theorem tryAlts_head_clash {alts : List Pat} {prev : Option Char} {c : Char}
    {rest : List Char} (hc : ∀ a ∈ alts, charEqCI c a.1 = false) :
    tryAlts alts prev (c :: rest) = none := by
  induction alts with
  | nil => rfl
  | cons a as ih =>
    simp only [tryAlts, matchAlt_head_clash (hc a (List.mem_cons_self a as))]
    exact ih (fun b hb => hc b (List.mem_cons_of_mem a hb))

/-- A scan over a text with no match site reproduces the text. -/
theorem scanReplF_of_noMatch {alts : List Pat} {en : List Char} :
    ∀ (fuel : Nat) (prev : Option Char) (s : List Char),
    noMatchF alts prev s = true → scanReplF alts en fuel prev s = s := by
  intro fuel
  induction fuel with
  | zero => intro prev s _; rfl
  | succ fuel ih =>
    intro prev s h
    cases s with
    | nil => rfl
    | cons c cs =>
      simp only [noMatchF, Bool.and_eq_true, Option.isNone_iff_eq_none] at h
      simp only [scanReplF, h.1]
      exact congrArg (List.cons c) (ih (some c) cs h.2)

theorem prevAt_cons (prev : Option Char) (c : Char) (u : List Char) :
    prevAt prev (c :: u) = prevAt (some c) u := rfl

theorem prevAt_ne_nil {prev : Option Char} {u : List Char} (h : u ≠ []) :
    prevAt prev u = u.getLast? := by
  induction u generalizing prev with
  | nil => exact absurd rfl h
  | cons c u' ih =>
    cases u' with
    | nil => rfl
    | cons d u'' =>
      rw [prevAt_cons, ih (by simp), List.getLast?_cons_cons]

theorem noMatchF_suffix {alts : List Pat} :
    ∀ (m : List Char) {prev : Option Char} {r : List Char},
    noMatchF alts prev (m ++ r) = true → noMatchF alts (prevAt prev m) r = true := by
  intro m
  induction m with
  | nil => intro prev r h; exact h
  | cons c m' ih =>
    intro prev r h
    simp only [List.cons_append, noMatchF, Bool.and_eq_true] at h
    rw [prevAt_cons]
    exact ih h.2

theorem noMatchF_prev {alts : List Pat} {p1 p2 : Option Char} {t : List Char}
    (h : noMatchF alts p1 t = true) (h2 : tryAlts alts p2 t = none) :
    noMatchF alts p2 t = true := by
  cases t with
  | nil => rfl
  | cons c cs =>
    simp only [noMatchF, Bool.and_eq_true] at h ⊢
    exact ⟨by simp [h2], h.2⟩

/-- Scanning is insensitive to surplus fuel. -/
theorem scanReplF_fuel {alts : List Pat} {en : List Char} :
    ∀ (f1 f2 : Nat) (prev : Option Char) (s : List Char),
    s.length ≤ f1 → s.length ≤ f2 →
    scanReplF alts en f1 prev s = scanReplF alts en f2 prev s := by
  intro f1
  induction f1 with
  | zero =>
    intro f2 prev s h1 _
    have hs : s = [] := List.length_eq_zero.mp (Nat.le_zero.mp h1)
    subst hs
    cases f2 <;> rfl
  | succ f1 ih =>
    intro f2 prev s h1 h2
    cases s with
    | nil => cases f2 <;> rfl
    | cons c cs =>
      cases f2 with
      | zero => simp at h2
      | succ f2 =>
        simp only [scanReplF]
        cases htry : tryAlts alts prev (c :: cs) with
        | some mr =>
          obtain ⟨m, r⟩ := mr
          have hr := tryAlts_rest_length htry
          simp only [List.length_cons] at hr h1 h2
          exact congrArg (en ++ ·) (ih f2 m.getLast? r (by omega) (by omega))
        | none =>
          simp only [List.length_cons] at h1 h2
          exact congrArg (List.cons c) (ih f2 (some c) cs (by omega) (by omega))

/-- With a non-word character before the scan position, the first output
character is the first input character (no alternative can fire there). -/
theorem scanReplF_head {alts : List Pat} {en : List Char}
    (hs : sealedAlts alts = true) :
    ∀ (fuel : Nat) (prev : Option Char) (s : List Char), isWordO prev = false →
    (scanReplF alts en fuel prev s).head? = s.head? := by
  intro fuel prev s hp
  cases fuel with
  | zero => rfl
  | succ fuel =>
    cases s with
    | nil => rfl
    | cons c cs => simp [scanReplF, tryAlts_nonword_prev hs hp]

/-- Pullback of a sealed literal through the scan: if a pattern made of
sealed characters that occur nowhere in the replacement strips from the
scan's output, then it strips from the scan's input at the same place,
and what follows it in the output is the scan of what follows it in the
input. -/
theorem stripCI_scan {alts : List Pat} {en : List Char} (hen : en ≠ []) :
    ∀ (fuel : Nat) (prev : Option Char) (s P : List Char), s.length ≤ fuel →
    P ≠ [] → P.all sealedChar = true →
    (∀ c ∈ en, ∀ p ∈ P, charEqCI c p = false) →
    ∀ {m v : List Char}, stripCI P (scanReplF alts en fuel prev s) = some (m, v) →
    ∃ w, s = P ++ w ∧ m = P ∧ v = scanReplF alts en w.length P.getLast? w := by
  intro fuel
  induction fuel with
  | zero =>
    intro prev s P hlen hPne hPs hcl m v h
    have hs : s = [] := List.length_eq_zero.mp (Nat.le_zero.mp hlen)
    subst hs
    cases P with
    | nil => exact absurd rfl hPne
    | cons p P' => simp [scanReplF, stripCI] at h
  | succ fuel ih =>
    intro prev s P hlen hPne hPs hcl m v h
    cases s with
    | nil =>
      cases P with
      | nil => exact absurd rfl hPne
      | cons p P' => simp [scanReplF, stripCI] at h
    | cons c cs =>
      cases P with
      | nil => exact absurd rfl hPne
      | cons p P' =>
      simp only [List.length_cons] at hlen
      cases htry : tryAlts alts prev (c :: cs) with
      | some mr =>
        obtain ⟨m0, r⟩ := mr
        simp only [scanReplF, htry] at h
        cases hene : en with
        | nil => exact absurd hene hen
        | cons e0 en' =>
        rw [hene, List.cons_append] at h
        have hcla : charEqCI e0 p = false :=
          hcl e0 (by rw [hene]; exact List.mem_cons_self _ _) p (List.mem_cons_self _ _)
        simp [stripCI, hcla] at h
      | none =>
        simp only [scanReplF, htry] at h
        simp only [stripCI] at h
        simp only [List.all_cons, Bool.and_eq_true] at hPs
        by_cases hce : charEqCI c p = true
        · rw [if_pos hce] at h
          have hcp : c = p := charEqCI_rigid hPs.1 hce
          subst hcp
          cases hM : stripCI P' (scanReplF alts en fuel (some c) cs) with
          | none =>
            rw [hM] at h
            simp only [] at h
            exact Option.noConfusion h
          | some mr' =>
            obtain ⟨m', v'⟩ := mr'
            rw [hM] at h
            simp only [Option.some.injEq, Prod.mk.injEq] at h
            obtain ⟨hm1, hv1⟩ := h
            cases P' with
            | nil =>
              simp only [stripCI, Option.some.injEq, Prod.mk.injEq] at hM
              obtain ⟨hm2, hv2⟩ := hM
              refine ⟨cs, rfl, ?_, ?_⟩
              · rw [← hm1, ← hm2]
              · rw [← hv1, ← hv2]
                exact scanReplF_fuel fuel cs.length (some c) cs (by omega) le_rfl
            | cons q P'' =>
              obtain ⟨w, hw1, hw2, hw3⟩ :=
                ih (some c) cs (q :: P'') (by omega) (by simp) hPs.2
                  (fun c' hc' p' hp' => hcl c' hc' p' (List.mem_cons_of_mem c hp')) hM
              refine ⟨w, ?_, ?_, ?_⟩
              · simp [hw1]
              · rw [← hm1, hw2]
              · rw [← hv1, hw3, List.getLast?_cons_cons]
        · rw [if_neg hce] at h
          exact Option.noConfusion h

/-- If an alternation of sealed literals disjoint from the replacement
text matches somewhere in a scan's output at a position with the same
preceding character, it also matches the scan's input there. -/
theorem tryAlts_scan {alts altsJ : List Pat} {en : List Char}
    (hsealed : sealedAlts alts = true) (hsJ : sealedAlts altsJ = true) (hen : en ≠ [])
    (hclean : ∀ c ∈ en, ∀ a ∈ altsJ, ∀ p ∈ patChars a, charEqCI c p = false)
    {fuel : Nat} {prev : Option Char} {s : List Char} (hlen : s.length ≤ fuel)
    {m v : List Char}
    (h : tryAlts altsJ prev (scanReplF alts en fuel prev s) = some (m, v)) :
    (tryAlts altsJ prev s).isSome = true := by
  obtain ⟨a, ha, hma⟩ := tryAlts_mem h
  have hsa : (patChars a).all sealedChar = true := sealedAlts_mem hsJ ha
  obtain ⟨hm, hout, hb1, hb2⟩ := matchAlt_rigid hsa hma
  have hstrip : stripCI (patChars a) (scanReplF alts en fuel prev s) =
      some (patChars a, v) := by
    rw [hout]
    exact stripCI_refl _ _
  obtain ⟨w, hw1, _, hw3⟩ :=
    stripCI_scan hen fuel prev s (patChars a) hlen (by simp [patChars]) hsa
      (fun c hc p hp => hclean c hc a ha p hp) hstrip
  have hplast : isWordO (patChars a).getLast? = false := sealed_isWordO_getLast hsa
  have hvw : v.head? = w.head? := by
    rw [hw3]
    exact scanReplF_head hsealed w.length (patChars a).getLast? w hplast
  have hb2' : bnd (patChars a).getLast? w.head? = true := by rw [← hvw]; exact hb2
  exact tryAlts_isSome_of ha (by rw [hw1]; exact matchAlt_of hb1 hb2')

/-- No match site anywhere in a text consisting of characters that clash
with every alternative head, followed by a text with no match site. -/
theorem noMatchF_append {altsJ : List Pat} :
    ∀ (e : List Char) {T : List Char} {prev : Option Char},
    (∀ c ∈ e, ∀ a ∈ altsJ, charEqCI c a.1 = false) →
    noMatchF altsJ (prevAt prev e) T = true →
    noMatchF altsJ prev (e ++ T) = true := by
  intro e
  induction e with
  | nil => intro T prev _ hT; exact hT
  | cons c e' ih =>
    intro T prev hheads hT
    have h1 : tryAlts altsJ prev (c :: (e' ++ T)) = none :=
      tryAlts_head_clash (fun a haJ => hheads c (List.mem_cons_self _ _) a haJ)
    have h2 : noMatchF altsJ (some c) (e' ++ T) = true :=
      ih (fun c' hc' a haJ => hheads c' (List.mem_cons_of_mem c hc') a haJ)
        (by rw [← prevAt_cons prev]; exact hT)
    simp [noMatchF, h1, h2]

/-- After a replacement fires, the emitted replacement text followed by
the recursively scanned rest has no match site of a clashing target
alternation, provided the scanned rest has none. -/
theorem noMatchF_scan_step {alts altsJ : List Pat} {en : List Char}
    (hsealed : sealedAlts alts = true) (hsJ : sealedAlts altsJ = true)
    {prev : Option Char} {c : Char} {cs m0 r : List Char} {fuel : Nat}
    (htry : tryAlts alts prev (c :: cs) = some (m0, r))
    (hheads : ∀ c' ∈ en, ∀ a ∈ altsJ, charEqCI c' a.1 = false)
    (Hout : noMatchF altsJ m0.getLast? (scanReplF alts en fuel m0.getLast? r) = true) :
    noMatchF altsJ prev (en ++ scanReplF alts en fuel m0.getLast? r) = true := by
  obtain ⟨b, hb, hmb⟩ := tryAlts_mem htry
  have hsb : (patChars b).all sealedChar = true := sealedAlts_mem hsealed hb
  obtain ⟨hm0, hsplit, hbb1, hbb2⟩ := matchAlt_rigid hsb hmb
  have hlast : isWordO m0.getLast? = false := by
    rw [hm0]
    exact sealed_isWordO_getLast hsb
  have hrw : isWordO r.head? = true := by
    rw [← hm0] at hbb2
    rwa [bnd_left_false hlast] at hbb2
  have Hout' : noMatchF altsJ (prevAt prev en)
      (scanReplF alts en fuel m0.getLast? r) = true := by
    cases hor : scanReplF alts en fuel m0.getLast? r with
    | nil => rfl
    | cons d rest =>
      have hh : (scanReplF alts en fuel m0.getLast? r).head? = r.head? :=
        scanReplF_head hsealed fuel m0.getLast? r hlast
      rw [hor] at hh
      rw [← hh] at hrw
      have hd : isWordChar d = true := by simpa [isWordO] using hrw
      exact noMatchF_prev (hor ▸ Hout) (tryAlts_word_head hsJ hd)
  exact noMatchF_append en hheads Hout'

/-- A scan by an alternation of sealed literals preserves the absence of
match sites of any (other) alternation of sealed literals whose
characters are disjoint from the replacement text. -/
theorem noMatchF_scan {alts altsJ : List Pat} {en : List Char}
    (hsealed : sealedAlts alts = true) (hsJ : sealedAlts altsJ = true) (hen : en ≠ [])
    (hclean : ∀ c ∈ en, ∀ a ∈ altsJ, ∀ p ∈ patChars a, charEqCI c p = false) :
    ∀ (fuel : Nat) (prev : Option Char) (s : List Char), s.length ≤ fuel →
    noMatchF altsJ prev s = true →
    noMatchF altsJ prev (scanReplF alts en fuel prev s) = true := by
  have hheads : ∀ c ∈ en, ∀ a ∈ altsJ, charEqCI c a.1 = false :=
    fun c hc a ha => hclean c hc a ha a.1 (by simp [patChars])
  intro fuel
  induction fuel with
  | zero => intro prev s _ H; exact H
  | succ fuel ih =>
    intro prev s hlen H
    cases s with
    | nil => exact H
    | cons c cs =>
      simp only [List.length_cons] at hlen
      cases htry : tryAlts alts prev (c :: cs) with
      | some mr =>
        obtain ⟨m0, r⟩ := mr
        simp only [scanReplF, htry]
        obtain ⟨b, hb, hmb⟩ := tryAlts_mem htry
        have hsb := sealedAlts_mem hsealed hb
        obtain ⟨hm0, hsplit, _, _⟩ := matchAlt_rigid hsb hmb
        have hm0ne : m0 ≠ [] := by rw [hm0]; simp [patChars]
        have Hr : noMatchF altsJ m0.getLast? r = true := by
          have h1 : noMatchF altsJ prev (m0 ++ r) = true := by
            rw [hm0, ← hsplit]
            exact H
          have h2 := noMatchF_suffix m0 h1
          rwa [prevAt_ne_nil hm0ne] at h2
        have hr_len : r.length ≤ fuel := by
          have := tryAlts_rest_length htry
          simp only [List.length_cons] at this
          omega
        exact noMatchF_scan_step hsealed hsJ htry hheads (ih m0.getLast? r hr_len Hr)
      | none =>
        simp only [scanReplF, htry]
        simp only [noMatchF, Bool.and_eq_true] at H ⊢
        refine ⟨?_, ih (some c) cs (by omega) H.2⟩
        cases hta : tryAlts altsJ prev (c :: scanReplF alts en fuel (some c) cs) with
        | none => rfl
        | some mv =>
          obtain ⟨mm, vv⟩ := mv
          exfalso
          have hre : scanReplF alts en (fuel + 1) prev (c :: cs) =
              c :: scanReplF alts en fuel (some c) cs := by
            simp only [scanReplF, htry]
          have hsome := tryAlts_scan hsealed hsJ hen hclean
            (show (c :: cs).length ≤ fuel + 1 by simp only [List.length_cons]; omega)
            (by rw [hre]; exact hta)
          rw [Option.isNone_iff_eq_none.mp H.1] at hsome
          simp at hsome

/-- After a scan by an alternation of sealed literals whose characters
are disjoint from its own replacement text, the output has no remaining
match site of that same alternation. -/
theorem noMatchF_scan_self {alts : List Pat} {en : List Char}
    (hsealed : sealedAlts alts = true) (hen : en ≠ [])
    (hclean : ∀ c ∈ en, ∀ a ∈ alts, ∀ p ∈ patChars a, charEqCI c p = false) :
    ∀ (fuel : Nat) (prev : Option Char) (s : List Char), s.length ≤ fuel →
    noMatchF alts prev (scanReplF alts en fuel prev s) = true := by
  have hheads : ∀ c ∈ en, ∀ a ∈ alts, charEqCI c a.1 = false :=
    fun c hc a ha => hclean c hc a ha a.1 (by simp [patChars])
  intro fuel
  induction fuel with
  | zero =>
    intro prev s hlen
    have hs : s = [] := List.length_eq_zero.mp (Nat.le_zero.mp hlen)
    subst hs
    rfl
  | succ fuel ih =>
    intro prev s hlen
    cases s with
    | nil => rfl
    | cons c cs =>
      simp only [List.length_cons] at hlen
      cases htry : tryAlts alts prev (c :: cs) with
      | some mr =>
        obtain ⟨m0, r⟩ := mr
        simp only [scanReplF, htry]
        have hr_len : r.length ≤ fuel := by
          have := tryAlts_rest_length htry
          simp only [List.length_cons] at this
          omega
        exact noMatchF_scan_step hsealed hsealed htry hheads (ih m0.getLast? r hr_len)
      | none =>
        simp only [scanReplF, htry]
        simp only [noMatchF, Bool.and_eq_true]
        refine ⟨?_, ih (some c) cs (by omega)⟩
        cases hta : tryAlts alts prev (c :: scanReplF alts en fuel (some c) cs) with
        | none => rfl
        | some mv =>
          obtain ⟨mm, vv⟩ := mv
          exfalso
          have hre : scanReplF alts en (fuel + 1) prev (c :: cs) =
              c :: scanReplF alts en fuel (some c) cs := by
            simp only [scanReplF, htry]
          have hsome := tryAlts_scan hsealed hsealed hen hclean
            (show (c :: cs).length ≤ fuel + 1 by simp only [List.length_cons]; omega)
            (by rw [hre]; exact hta)
          rw [htry] at hsome
          simp at hsome

/-- The two side conditions on one lexicon entry: sealed patterns and a
non-empty replacement. -/
def entOK (e : LexEntry) : Bool := sealedAlts e.alts && !e.en.isEmpty

/-- The replacement of the first entry shares no character, even up to
ASCII case folding, with any pattern character of the second entry. -/
def cleanPair (e eJ : LexEntry) : Bool :=
  e.en.all (fun c => eJ.alts.all (fun a => (patChars a).all (fun p => !charEqCI c p)))

theorem urduLex_entOK : urduLex.all entOK = true := by decide

theorem urduLex_cleanPair :
    urduLex.all (fun e => urduLex.all (cleanPair e)) = true := by decide

theorem urduLex_sealed {e : LexEntry} (he : e ∈ urduLex) :
    sealedAlts e.alts = true := by
  have h := List.all_eq_true.mp urduLex_entOK e he
  simp only [entOK, Bool.and_eq_true] at h
  exact h.1

theorem urduLex_en_ne {e : LexEntry} (he : e ∈ urduLex) : e.en ≠ [] := by
  have h := List.all_eq_true.mp urduLex_entOK e he
  simp only [entOK, Bool.and_eq_true, Bool.not_eq_true'] at h
  intro hnil
  rw [hnil] at h
  exact absurd h.2 (by simp)

theorem urduLex_clean {e eJ : LexEntry} (he : e ∈ urduLex) (heJ : eJ ∈ urduLex) :
    ∀ c ∈ e.en, ∀ a ∈ eJ.alts, ∀ p ∈ patChars a, charEqCI c p = false := by
  have h := List.all_eq_true.mp (List.all_eq_true.mp urduLex_cleanPair e he) eJ heJ
  simp only [cleanPair] at h
  intro c hc a ha p hp
  have h2 := List.all_eq_true.mp
    (List.all_eq_true.mp (List.all_eq_true.mp h c hc) a ha) p hp
  simpa using h2

/-- Along the fold of the lexicon, every entry's match sites are gone in
the final text: entries still to be processed get cleared by their own
scan, and already-clear entries stay clear through every later scan. -/
theorem foldl_noMatch (eJ : LexEntry) (heJ : eJ ∈ urduLex) :
    ∀ (lex : List LexEntry) (t : List Char),
    (∀ e ∈ lex, e ∈ urduLex) →
    (noMatchF eJ.alts none t = true ∨ eJ ∈ lex) →
    noMatchF eJ.alts none (lex.foldl applyEntry t) = true := by
  intro lex
  induction lex with
  | nil =>
    intro t _ hstart
    rcases hstart with h | h
    · exact h
    · exact absurd h (List.not_mem_nil _)
  | cons k lex' ih =>
    intro t hsub hstart
    have hk : k ∈ urduLex := hsub k (List.mem_cons_self _ _)
    simp only [List.foldl_cons]
    apply ih (applyEntry t k) (fun e he => hsub e (List.mem_cons_of_mem k he))
    rcases hstart with hnm | hmem
    · left
      exact noMatchF_scan (urduLex_sealed hk) (urduLex_sealed heJ) (urduLex_en_ne hk)
        (urduLex_clean hk heJ) t.length none t le_rfl hnm
    · rcases List.mem_cons.mp hmem with heq | hmem'
      · left
        subst heq
        exact noMatchF_scan_self (urduLex_sealed heJ) (urduLex_en_ne heJ)
          (urduLex_clean heJ heJ) t.length none t le_rfl
      · right
        exact hmem'

theorem urduToEnglishL_noMatch (s : List Char) :
    ∀ eJ ∈ urduLex, noMatchF eJ.alts none (urduToEnglishL s) = true :=
  fun eJ heJ => foldl_noMatch eJ heJ urduLex s (fun _ he => he) (Or.inr heJ)

theorem foldl_applyEntry_id :
    ∀ (lex : List LexEntry) (t : List Char),
    (∀ e ∈ lex, noMatchF e.alts none t = true) →
    lex.foldl applyEntry t = t := by
  intro lex
  induction lex with
  | nil => intro t _; rfl
  | cons k lex' ih =>
    intro t h
    have hk : applyEntry t k = t :=
      scanReplF_of_noMatch t.length none t (h k (List.mem_cons_self _ _))
    simp only [List.foldl_cons, hk]
    exact ih t (fun e he => h e (List.mem_cons_of_mem k he))

theorem urduToEnglishL_idem (s : List Char) :
    urduToEnglishL (urduToEnglishL s) = urduToEnglishL s :=
  foldl_applyEntry_id urduLex (urduToEnglishL s) (urduToEnglishL_noMatch s)

/-- C10: normalization is idempotent: for every utterance, applying the
Normalizer twice returns the same string as applying it once, because a
full pass leaves no remaining match site of any lexicon entry. -/
theorem c10_idempotent (s : String) :
    urduToEnglish (urduToEnglish s) = urduToEnglish s := by
  have key : ∀ t : String, urduToEnglish t = ⟨urduToEnglishL t.data⟩ := fun _ => rfl
  have data_mk : ∀ l : List Char, (⟨l⟩ : String).data = l := fun _ => rfl
  rw [key (urduToEnglish s), key s, data_mk, urduToEnglishL_idem]

end CCRobot
